import Mathlib

/-!
# Verification of the skip-list node engine (`src/skipnode.rs`)

A shallow embedding of the node-level skip-list engine.  The level-0 chain of
nodes is represented as a Lean `List` whose first entry is the node the
operation starts from (for public operations: the head sentinel).  A node
stores its payload, its height and its stored span array `links_len`.  The
per-level forward pointers `links[L]` of the source always point at the next
node of height at least `L` (the splice code maintains exactly this), so a
pointer at level `L` is represented by the suffix of the list starting at the
first later node of height `≥ L`; pointer identity corresponds to suffix
identity (distinct positions in a list have suffixes of distinct lengths).
The `prev` back-pointers similarly point at the preceding node of the list.
Machine integers (`usize`) are modelled as `Nat`; subtractions performed by
the source are `Nat` truncated subtraction, with the well-formedness
invariant ensuring they never underflow where the claims apply, and the one
construction-time subtraction that can underflow (`SkipNode::head`) is
modelled with an explicit checked subtraction.
-/

set_option autoImplicit false

universe u

/-- A skip-list node as the algorithms observe it: the optional payload
(`None` only for the head sentinel), the height `level`, and the stored span
array `links_len` (one entry per level `0..=level`).  The raw pointers
`links` / `prev` of the source are represented by the enclosing list: see the
module comment. -/
structure SkipNode (V : Type u) where
  value : Option V
  level : Nat
  links_len : List Nat
deriving Repr, DecidableEq

namespace SkipNode

variable {V : Type u}

/-- Rust `SkipNode::new`: a detached node with the given value and level,
all links null and all spans zero. -/
def new (value : V) (level : Nat) : SkipNode V :=
  { value := some value, level := level, links_len := List.replicate (level + 1) 0 }

/-- The head sentinel as it sits at the front of a well-formed structure
(Rust `SkipNode::head` for `total_levels ≥ 1`). -/
def head (total_levels : Nat) : SkipNode V :=
  { value := none, level := total_levels - 1, links_len := List.replicate total_levels 0 }

/-- `nd.links_len[L]` as read by the source (out-of-range reads only happen in
junk branches that are unreachable on well-formed structures). -/
def span (nd : SkipNode V) (L : Nat) : Nat := nd.links_len.getD L 0

/-- `nd.links_len[L] = v`.  `List.set` beyond the length of the array is the
identity; the invariant `links_len.length = level + 1` means every write the
source performs is in range. -/
def setSpan (nd : SkipNode V) (L v : Nat) : SkipNode V :=
  { nd with links_len := nd.links_len.set L v }

end SkipNode

/-- Rust `usize` subtraction panics (in checked builds) on underflow; `none`
models the panic. -/
def checkedSub (a b : Nat) : Option Nat := if b ≤ a then some (a - b) else none

/-- Pointer-level image of a freshly constructed node: payload, height, the
nullable back pointer and the raw forward pointer vector (all null at
construction time), and the span vector. -/
structure SkipNodeRaw (V : Type u) where
  value : Option V
  level : Nat
  prev : Option Nat
  links : List (Option Nat)
  links_len : List Nat
deriving Repr, DecidableEq

/-- Rust `SkipNode::head(total_levels)`: value `None`,
`level = total_levels - 1` (a `usize` subtraction, which underflows when
`total_levels = 0`), `total_levels` null links and `total_levels` zero spans,
and a null `prev`. -/
def SkipNodeRaw.head (V : Type u) (total_levels : Nat) : Option (SkipNodeRaw V) :=
  (checkedSub total_levels 1).map fun lvl =>
    { value := none, level := lvl, prev := none,
      links := List.replicate total_levels none,
      links_len := List.replicate total_levels 0 }

/-- Bit length of a natural number, the value of
`num_bits - n.leading_zeros()` before widths enter: `bitLen 0 = 0` and
`bitLen n = bitLen (n / 2) + 1` otherwise. -/
def bitLen : Nat → Nat
  | 0 => 0
  | n + 1 => bitLen ((n + 1) / 2) + 1
decreasing_by exact Nat.div_lt_self (Nat.succ_pos n) Nat.one_lt_two

/-- `usize` is 64 bits wide on the targets the crate supports
(`std::mem::size_of::<usize>() * 8`). -/
def usizeBits : Nat := 64

/-- Rust `usize::leading_zeros` for values below `2 ^ 64`. -/
def leadingZeros (n : Nat) : Nat := usizeBits - bitLen n

/-- Rust `levels_required`: minimum sentinel height for a list of size `n`. -/
def levels_required (n : Nat) : Nat :=
  if n = 0 then 1 else usizeBits - leadingZeros n

namespace SkipList

variable {V : Type u}

/-- Default node returned by out-of-range positional access; only reachable
in junk branches that cannot arise on nonempty inputs. -/
def dflt : SkipNode V := { value := none, level := 0, links_len := [] }

/-- The forward pointer at level `L`: the suffix starting at the first node of
height `≥ L`, or `none` for the null pointer. -/
def findNext (L : Nat) : List (SkipNode V) → Option (List (SkipNode V))
  | [] => none
  | x :: xs => if L ≤ x.level then some (x :: xs) else findNext L xs

/-- The span stored at the front node of a suffix (the node a pointer
designates). -/
def hdSpan (L : Nat) (s : List (SkipNode V)) : Nat :=
  match s with
  | [] => 0
  | c :: _ => c.span L

/-- Loop body of Rust `SkipNode::advance_while` (and `advance_while_mut`)
with the dereference of `links[L]` fused in: `cur` is the suffix at the
current node and the second argument is the portion of `cur`'s tail not yet
scanned for the next node of height `≥ L`.  When that node is found
(`advance_if`'s non-null link), the predicate decides whether to cross the
link, accumulating the current node's stored span; otherwise the current node
is returned with the distance travelled.  The closure state of the Rust
`FnMut` is threaded through `σ`. -/
def advW {σ : Type} (L : Nat)
    (pred : σ → List (SkipNode V) → List (SkipNode V) → Bool × σ) :
    List (SkipNode V) → List (SkipNode V) → σ → List (SkipNode V) × Nat × σ
  | cur, [], st => (cur, 0, st)
  | cur, x :: xs, st =>
    if L ≤ x.level then
      match pred st cur (x :: xs) with
      | (true, st1) =>
        let r := advW L pred (x :: xs) xs st1
        (r.1, hdSpan L cur + r.2.1, r.2.2)
      | (false, st1) => (cur, 0, st1)
    else advW L pred cur xs st

/-- Rust `SkipNode::advance_while`: repeatedly apply `advance_if` at level `L`
until it refuses, accumulating the distance travelled. -/
def advance_while {σ : Type} (L : Nat)
    (pred : σ → List (SkipNode V) → List (SkipNode V) → Bool × σ)
    (s : List (SkipNode V)) (st : σ) : List (SkipNode V) × Nat × σ :=
  match s with
  | [] => ([], 0, st)
  | c :: rest => advW L pred (c :: rest) rest st

/-- Rust `SkipNode::advance_atmost` / `advance_atmost_mut`: move forward at
level `L` while the next stored span still fits in the remaining budget. -/
def advance_atmost (L : Nat) (s : List (SkipNode V)) (max_distance : Nat) :
    List (SkipNode V) × Nat :=
  let r := advance_while L
    (fun md cur _next =>
      let travelled := hdSpan L cur
      if travelled ≤ md then (true, md - travelled) else (false, md))
    s max_distance
  (r.1, r.2.1)

/-- Rust `SkipNode::distance`: walk forward at `level` until reaching `target`
(pointer identity = suffix identity) or, for `none`, the end of the chain;
`Except.error ()` is the `Err(())` of the source. -/
def distance [DecidableEq V] (L : Nat) (s : List (SkipNode V))
    (target : Option (List (SkipNode V))) : Except Unit Nat :=
  match target with
  | some t =>
    let r := advance_while L (fun _ cur _next => (decide (¬ cur = t), ())) s ()
    if r.1 = t then Except.ok r.2.1 else Except.error ()
  | none =>
    let r := advance_while L (fun _ _cur _next => (true, ())) s ()
    Except.ok (hdSpan L r.1 + r.2.1)

/-- Apply `f` to the entry at index `i` (identity when out of range). -/
def modifyAt (f : SkipNode V → SkipNode V) : Nat → List (SkipNode V) → List (SkipNode V)
  | _, [] => []
  | 0, c :: rest => f c :: rest
  | i + 1, c :: rest => c :: modifyAt f i rest

/-- Rust `SkipNode::_insert` with the budget-consuming locater of
`SkipNode::insert` inlined (the locater is `advance_atmost_mut` on the
remaining budget, which it decreases by the distance travelled).  Returns the
transformed list, the position of the inserted node (the returned `&mut`
reference) and the returned distance.  At level 0 the splice is
`take_next` / `replace_next`: the predecessor's level-0 span becomes 1, the
new node's level-0 span becomes 1 when a tail is reattached behind it and is
left untouched otherwise.  Unwinding at level `L+1`, if the new node reaches
this level it steals the predecessor's span (`prev_len + 1 - insert_distance`)
and the predecessor keeps `insert_distance`; otherwise the predecessor's span
grows by one.  The `([], 0, 0)` branches model arms the source cannot reach
(`self` always exists, so the search position is never empty). -/
def insertRec (new : SkipNode V) : Nat → List (SkipNode V) → Nat →
    List (SkipNode V) × Nat × Nat
  | 0, s, b =>
    let a := advance_atmost 0 s b
    let pre := s.take (s.length - a.1.length)
    match a.1 with
    | [] => ([], 0, 0)
    | prev :: tail =>
      match tail with
      | [] => (pre ++ [prev.setSpan 0 1, new], pre.length + 1, a.2 + 1)
      | t :: ts =>
        (pre ++ prev.setSpan 0 1 :: new.setSpan 0 1 :: t :: ts, pre.length + 1, a.2 + 1)
  | L + 1, s, b =>
    let a := advance_atmost (L + 1) s b
    let pre := s.take (s.length - a.1.length)
    match a.1 with
    | [] => ([], 0, 0)
    | prev :: tail =>
      let r := insertRec new L (prev :: tail) (b - a.2)
      let inserted := r.1.getD r.2.1 dflt
      let s3 :=
        if L + 1 ≤ inserted.level then
          modifyAt (fun nd => nd.setSpan (L + 1) r.2.2) 0
            (modifyAt (fun nd => nd.setSpan (L + 1) (hdSpan (L + 1) r.1 + 1 - r.2.2))
              r.2.1 r.1)
        else
          modifyAt (fun nd => nd.setSpan (L + 1) (nd.span (L + 1) + 1)) 0 r.1
      (pre ++ s3, pre.length + r.2.1, a.2 + r.2.2)

/-- Rust `SkipNode::insert` (public): locate and splice via `_insert` starting
at the node's own top level.  The Rust function has no return value; the
mutated structure is the list this returns. -/
def insert (s : List (SkipNode V)) (new_node : SkipNode V) (dist : Nat) :
    List (SkipNode V) :=
  match s with
  | [] => []
  | c :: rest => (insertRec new_node c.level (c :: rest) dist).1

/-- The value the expression `self.insert(new_node, distance)` evaluates to in
the source: `pub fn insert` has no return type, so it is `()`. -/
def insertReturn (_s : List (SkipNode V)) (_new_node : SkipNode V) (_dist : Nat) : Unit := ()

/-- Outcome of `SkipNode::_remove` / `SkipNode::remove`: `notFound` is the
`None` return, `panicked` is the `assert_eq!` failure during the unwind, and
`ok` carries the transformed list, the removed node and the distance. -/
inductive RemoveRes (V : Type u) where
  | notFound : RemoveRes V
  | panicked : RemoveRes V
  | ok : List (SkipNode V) → SkipNode V → Nat → RemoveRes V
deriving Repr, DecidableEq

/-- Rust `SkipNode::_remove` with the locater of `SkipNode::remove` inlined
(the locater is `advance_atmost_mut` on the remaining budget and returns
`None` when the located node's level-0 link is null, i.e. when it is the last
node of the structure).  At level 0 the target is detached (`take_next` zeroes
the predecessor's level-0 span, and `replace_next` sets it back to 1 when a
successor is reattached; the detached node's own level-0 span is zeroed when
it had a successor).  Unwinding at level `L+1`, if the removed node reached
this level the predecessor inherits `distance + removed_len - 1` after the
defensive `assert_eq!(prev_len, distance)`; otherwise its span just
decrements. -/
def removeRec : Nat → List (SkipNode V) → Nat → RemoveRes V
  | 0, s, b =>
    let a := advance_atmost 0 s b
    let pre := s.take (s.length - a.1.length)
    match a.1 with
    | [] => RemoveRes.notFound
    | prev :: tail =>
      match tail with
      | [] => RemoveRes.notFound
      | rem :: ts =>
        match ts with
        | [] => RemoveRes.ok (pre ++ [prev.setSpan 0 0]) rem (a.2 + 1)
        | _ :: _ => RemoveRes.ok (pre ++ prev.setSpan 0 1 :: ts) (rem.setSpan 0 0) (a.2 + 1)
  | L + 1, s, b =>
    let a := advance_atmost (L + 1) s b
    let pre := s.take (s.length - a.1.length)
    match a.1 with
    | [] => RemoveRes.notFound
    | prev :: tail =>
      if tail.isEmpty then RemoveRes.notFound
      else
        match removeRec L (prev :: tail) (b - a.2) with
        | RemoveRes.notFound => RemoveRes.notFound
        | RemoveRes.panicked => RemoveRes.panicked
        | RemoveRes.ok s2 rem d0 =>
          if L + 1 ≤ rem.level then
            if hdSpan (L + 1) s2 = d0 then
              RemoveRes.ok
                (pre ++ modifyAt (fun nd => nd.setSpan (L + 1) (d0 + rem.span (L + 1) - 1)) 0 s2)
                rem (a.2 + d0)
            else RemoveRes.panicked
          else
            RemoveRes.ok
              (pre ++ modifyAt (fun nd => nd.setSpan (L + 1) (nd.span (L + 1) - 1)) 0 s2)
              rem (a.2 + d0)

/-- Rust `SkipNode::remove` (public): `_remove` from the node's own top
level. -/
def remove (s : List (SkipNode V)) (dist : Nat) : RemoveRes V :=
  match s with
  | [] => RemoveRes.notFound
  | c :: rest => removeRec c.level (c :: rest) dist

/-- Rust `SkipNode::take_next` on a holder owning the chain `s`: detach the
first node (which keeps ownership of the rest of the chain), or `None` when
the level-0 link is null. -/
def take_next : List (SkipNode V) → Option (SkipNode V × List (SkipNode V))
  | [] => none
  | n :: rest => some (n, rest)

/-- One `take_next` call of the `Drop` loop.  A state `some t` means the loop
variable holds a node owning the chain `t`; `none` means `take_next` returned
`None` and the loop has ended. -/
def dropIter : Option (List (SkipNode V)) → Option (List (SkipNode V)) :=
  fun st =>
    match st with
    | none => none
    | some t => (take_next t).map (fun p => p.2)

/-- Stored length of the link at level `L` demanded by the data model: the
index difference to the next node of height `≥ L`, or the number of remaining
nodes when there is none. -/
def gapAt (L : Nat) (rest : List (SkipNode V)) : Nat :=
  match findNext L rest with
  | none => rest.length
  | some t => rest.length - t.length + 1

/-- Single-pass check of the span invariant at level `L`: `pending` is how
much of the most recent `≥ L` node's stored span is still unaccounted for.
Each cell consumes one unit; a node of height `≥ L` must be reached with
exactly one unit left (its predecessor's span is the index difference), and
the end of the list with zero (the final span counts the remaining nodes). -/
def spansOkAux (L : Nat) : Nat → List (SkipNode V) → Bool
  | pending, [] => pending == 0
  | pending, x :: xs =>
    if L ≤ x.level then (pending == 1) && spansOkAux L (x.span L) xs
    else (decide (1 ≤ pending)) && spansOkAux L (pending - 1) xs

/-- The span invariant at level `L` along the chain starting at the front
node: every chain node's stored span equals its `gapAt`. -/
def spansOk (L : Nat) (s : List (SkipNode V)) : Bool :=
  match s with
  | [] => true
  | c :: rest => spansOkAux L (c.span L) rest

/-- `links_len` has exactly `level + 1` entries (data-model invariant 1). -/
def lenOk (nd : SkipNode V) : Bool := nd.links_len.length == nd.level + 1

/-- Height of the front node (for a full structure: the sentinel). -/
def headLevel (s : List (SkipNode V)) : Nat := (s.headD dflt).level

/-- Well-formedness of a structure: nonempty, every span array sized to its
node's height, no element taller than the sentinel, and the span invariant at
every level of the sentinel. -/
def WF (s : List (SkipNode V)) : Bool :=
  !s.isEmpty &&
  s.all lenOk &&
  (s.drop 1).all (fun nd => nd.level ≤ headLevel s) &&
  (List.range (headLevel s + 1)).all (fun L => spansOk L s)

/-- Helper for `chainSufs`: collect the suffix at the current node, then scan
the unscanned cells for further nodes of height `≥ L`. -/
def chainSufsAux (L : Nat) :
    List (SkipNode V) → List (SkipNode V) → List (List (SkipNode V))
  | cur, [] => [cur]
  | cur, x :: xs =>
    if L ≤ x.level then cur :: chainSufsAux L (x :: xs) xs
    else chainSufsAux L cur xs

/-- The suffixes visited when following the level-`L` chain from the front
node: the reachable nodes at level `L` are exactly the heads of these. -/
def chainSufs (L : Nat) (s : List (SkipNode V)) : List (List (SkipNode V)) :=
  match s with
  | [] => []
  | c :: rest => chainSufsAux L (c :: rest) rest

/-- A mutation of the structure: insert a fresh node (Rust
`SkipNode::new (v, lvl)`) at offset `d`, or remove at offset `d` (a removal
that reports `None` leaves the structure unchanged). -/
inductive Op (V : Type u) where
  | ins : V → Nat → Nat → Op V
  | rem : Nat → Op V

def applyOp (s : List (SkipNode V)) : Op V → List (SkipNode V)
  | Op.ins v lvl d => insert s (SkipNode.new v lvl) d
  | Op.rem d =>
    match remove s d with
    | RemoveRes.ok s2 _ _ => s2
    | _ => s

def applyOps (s : List (SkipNode V)) (ops : List (Op V)) : List (SkipNode V) :=
  ops.foldl applyOp s

/-! ## Canonical spans: the shape `_insert` and `_remove` leave behind -/

/-- Write the canonical spans at levels `0 .. L` into a node, each computed
against the given tail. -/
def setSpansUpto : Nat → SkipNode V → List (SkipNode V) → SkipNode V
  | 0, nd, rest => nd.setSpan 0 (gapAt 0 rest)
  | L + 1, nd, rest => (setSpansUpto L nd rest).setSpan (L + 1) (gapAt (L + 1) rest)

/-- Rewrite every node's spans at levels `0 .. L` to the canonical gaps. -/
def fixUpto (L : Nat) : List (SkipNode V) → List (SkipNode V)
  | [] => []
  | c :: rest => setSpansUpto L c rest :: fixUpto L rest

/-- Rewrite every node's span at the single level `M` to the canonical gap. -/
def fixAt (M : Nat) : List (SkipNode V) → List (SkipNode V)
  | [] => []
  | c :: rest => c.setSpan M (gapAt M rest) :: fixAt M rest

/-- The list-shape effect of `_insert` with a budget reaching position `q`:
the new node enters right after position `q`. -/
def rawIns (s : List (SkipNode V)) (q : Nat) (new : SkipNode V) :
    List (SkipNode V) :=
  s.take (q + 1) ++ new :: s.drop (q + 1)

/-- The list-shape effect of `_remove` of the node at position `j`. -/
def rawRem (s : List (SkipNode V)) (j : Nat) : List (SkipNode V) :=
  s.take j ++ s.drop (j + 1)

/-- How a result of `_remove` is adjusted when re-attached below a crossed
prefix: the prefix is glued back on and its distance added. -/
def resShift (pre : List (SkipNode V)) (w : Nat) : RemoveRes V → RemoveRes V
  | RemoveRes.notFound => RemoveRes.notFound
  | RemoveRes.panicked => RemoveRes.panicked
  | RemoveRes.ok s2 rem d => RemoveRes.ok (pre ++ s2) rem (w + d)

/-! ## The rank-sum invariant along a chain -/

/-- Walk the level-`L` chain accumulating the stored spans: each entry pairs
the sum of `links_len[L]` along the chain up to and including the link that
reaches a node with the suffix at that node (the head itself appears with
sum 0).  The second argument is the portion of the current node's tail not
yet scanned for the next chain node. -/
def chainSumsAux (L : Nat) :
    Nat → List (SkipNode V) → List (SkipNode V) → List (Nat × List (SkipNode V))
  | acc, cur, [] => [(acc, cur)]
  | acc, cur, x :: xs =>
    if L ≤ x.level then (acc, cur) :: chainSumsAux L (acc + hdSpan L cur) (x :: xs) xs
    else chainSumsAux L acc cur xs

/-- All (span-sum, suffix) pairs for the nodes reachable at level `L` from
the front node. -/
def chainSums (L : Nat) (s : List (SkipNode V)) : List (Nat × List (SkipNode V)) :=
  match s with
  | [] => []
  | c :: rest => chainSumsAux L 0 (c :: rest) rest

/-- The rank-sum invariant at level `L`: for every node reachable at level
`L`, the accumulated spans up to it equal its 0-based position in the full
level-0 order. -/
def rankOk (L : Nat) (s : List (SkipNode V)) : Bool :=
  (chainSums L s).all (fun p => p.1 == s.length - p.2.length)

/-- A level bound making an operation compatible with a given sentinel
height (the wrapper never creates nodes taller than the sentinel). -/
def opOk (h : Nat) : Op V → Bool
  | Op.ins _ lvl _ => decide (lvl ≤ h)
  | Op.rem _ => true

/-! ## Concrete well-formed structures for the claims below -/

/-- A height-1 sentinel over elements 10, 20, 30 with 20 at height 1. -/
def exHead : SkipNode Nat := { value := none, level := 1, links_len := [1, 2] }

def exRest : List (SkipNode Nat) :=
  [ { value := some 10, level := 0, links_len := [1] },
    { value := some 20, level := 1, links_len := [1, 1] },
    { value := some 30, level := 0, links_len := [0] } ]

/-- A height-1 sentinel over ten elements 0..9 with element 5 at height 1. -/
def exHead10 : SkipNode Nat := { value := none, level := 1, links_len := [1, 6] }

def exRest10 : List (SkipNode Nat) :=
  [ { value := some 0, level := 0, links_len := [1] },
    { value := some 1, level := 0, links_len := [1] },
    { value := some 2, level := 0, links_len := [1] },
    { value := some 3, level := 0, links_len := [1] },
    { value := some 4, level := 0, links_len := [1] },
    { value := some 5, level := 1, links_len := [1, 4] },
    { value := some 6, level := 0, links_len := [1] },
    { value := some 7, level := 0, links_len := [1] },
    { value := some 8, level := 0, links_len := [1] },
    { value := some 9, level := 0, links_len := [0] } ]


end SkipList

/-- Rust `IntoIter`: ownership of the chain from the current front node, the
remaining count, and the state of the front node's `prev` pointer.  The
`last` raw pointer of the source designates the final node of the chain; the
`prev` pointers walked by `next_back` are the list structure itself, valid
for every node whose predecessor is still owned by the iterator.  A freshly
built iterator holds a chain detached from the sentinel by `take_next`, so
its front node's `prev` is null (`frontPrevNull = true`); `Iterator::next`
never resets the new front node's `prev`, which is then left dangling at the
just-freed popped node (`frontPrevNull = false`). -/
structure IntoIter (V : Type u) where
  first : List (SkipNode V)
  size : Nat
  frontPrevNull : Bool
deriving Repr, DecidableEq

namespace IntoIter

variable {V : Type u}

/-- Rust `Iterator::next` for `IntoIter`: pop the front node (detaching its
successor chain) and return its payload.  `next_node.prev` is not reset: when
a successor remains it becomes the front with its `prev` dangling at the
freed popped node. -/
def next : IntoIter V → Option V × IntoIter V
  | ⟨[], sz, fp⟩ => (none, ⟨[], sz, fp⟩)
  | ⟨popped :: rest, sz, fp⟩ =>
    match rest with
    | [] => (popped.value, ⟨[], sz - 1, fp⟩)
    | r :: rs => (popped.value, ⟨r :: rs, sz - 1, false⟩)

/-- Rust `DoubleEndedIterator::next_back` for `IntoIter`, branching on
`(*self.last).prev` as the source does.  With two or more nodes left,
`last`'s `prev` is its live predecessor: the predecessor's level-0 link is
severed and the back node reclaimed through it.  With a single node left,
`last` is the front node: its `prev` is null only when no front pop has
happened, and the node is then popped cleanly through `first`; after a front
pop the `prev` read dangles at a freed node, is non-null, and the reclaim
branch runs `Box::from_raw` on a location read out of freed memory —
undefined behaviour, modelled as `none`. -/
def next_back : IntoIter V → Option (Option V × IntoIter V)
  | ⟨[], sz, fp⟩ => some (none, ⟨[], sz, fp⟩)
  | ⟨c :: rest, sz, fp⟩ =>
    match rest with
    | [] => if fp then some (c.value, ⟨[], sz - 1, fp⟩) else none
    | r :: rs =>
      some (((c :: r :: rs).getLast (List.cons_ne_nil c (r :: rs))).value,
        ⟨(c :: r :: rs).dropLast, sz - 1, fp⟩)

/-- Which end a consuming pop takes from. -/
inductive PopEnd where
  | front | back
deriving Repr, DecidableEq

/-- Run an interleaving of front/back pops: `none` as soon as a pop touches
freed memory, otherwise the values popped from the front (in pop order), the
final iterator, and the values popped from the back (in pop order, i.e. the
first back pop first). -/
def runIter : List PopEnd → IntoIter V → Option (List V × IntoIter V × List V)
  | [], it => some ([], it, [])
  | PopEnd.front :: ops, it =>
    let p := next it
    match runIter ops p.2 with
    | none => none
    | some r => some (p.1.toList ++ r.1, r.2.1, r.2.2)
  | PopEnd.back :: ops, it =>
    match next_back it with
    | none => none
    | some p =>
      match runIter ops p.2 with
      | none => none
      | some r => some (r.1, r.2.1, p.1.toList ++ r.2.2)

/-- The payloads still held by the iterator, front to back. -/
def remVals (it : IntoIter V) : List V := it.first.filterMap SkipNode.value

end IntoIter

/-- A three-element structure used as a concrete input below, built by
appending 10, 11, 12 to a height-1 sentinel. -/
def exampleList3 : List (SkipNode Nat) :=
  SkipList.applyOps [SkipNode.head 1]
    [SkipList.Op.ins 10 0 0, SkipList.Op.ins 11 0 1, SkipList.Op.ins 12 0 2]


/-! ## Arithmetic facts about `bitLen` and `levels_required` (claim C8) -/

theorem bitLen_zero : bitLen 0 = 0 := by simp [bitLen]

theorem bitLen_pos {n : Nat} (h : 1 ≤ n) : bitLen n = bitLen (n / 2) + 1 := by
  match n, h with
  | n + 1, _ => simp [bitLen]

theorem bitLen_le_of_lt {k : Nat} : ∀ {n : Nat}, n < 2 ^ k → bitLen n ≤ k := by
  induction k with
  | zero =>
    intro n h
    have : n = 0 := by simpa using Nat.lt_one_iff.mp (by simpa using h)
    simp [this, bitLen_zero]
  | succ k ih =>
    intro n h
    match n with
    | 0 => simp [bitLen_zero]
    | n + 1 =>
      rw [bitLen_pos (Nat.succ_le_succ (Nat.zero_le n))]
      have hdiv : (n + 1) / 2 < 2 ^ k := by
        refine (Nat.div_lt_iff_lt_mul (by norm_num : (0 : Nat) < 2)).mpr ?_
        have hp : 2 ^ (k + 1) = 2 ^ k * 2 := by ring
        omega
      exact Nat.succ_le_succ (ih hdiv)

theorem bitLen_eq_log2 : ∀ n : Nat, 1 ≤ n → bitLen n = Nat.log2 n + 1 := by
  intro n
  induction n using Nat.strong_induction_on with
  | _ n ih =>
    intro h
    match n, h with
    | 1, _ => simp [bitLen, Nat.log2]
    | n + 2, _ =>
      rw [bitLen_pos (by omega), Nat.log2]
      have hdiv1 : 1 ≤ (n + 2) / 2 := by
        have : 2 ≤ n + 2 := by omega
        exact Nat.one_le_div_iff (by norm_num) |>.mpr this
      have hlt : (n + 2) / 2 < n + 2 := Nat.div_lt_self (by omega) (by norm_num)
      rw [ih ((n + 2) / 2) hlt hdiv1]
      simp [show 2 ≤ n + 2 by omega]

/-- The level-count law in closed form: `64 - leading_zeros n` is
`⌊log₂ n⌋ + 1` for `n ≥ 1` in the `usize` range. -/
theorem levels_required_log2 :
    ∀ n : Nat, 1 ≤ n → n < 2 ^ 64 → levels_required n = Nat.log2 n + 1 := by
  intro n h1 h2
  have hle : bitLen n ≤ 64 := bitLen_le_of_lt h2
  rw [levels_required, if_neg (by omega), leadingZeros, usizeBits]
  rw [bitLen_eq_log2 n h1] at hle ⊢
  omega

theorem levels_required_zero : levels_required 0 = 1 := by
  simp [levels_required]

theorem levels_required_one : levels_required 1 = 1 := by
  rw [levels_required_log2 1 (by norm_num) (by norm_num)]
  simp [Nat.log2]

theorem levels_required_two : levels_required 2 = 2 := by
  rw [levels_required_log2 2 (by norm_num) (by norm_num)]
  simp [Nat.log2]

theorem levels_required_three : levels_required 3 = 2 := by
  rw [levels_required_log2 3 (by norm_num) (by norm_num)]
  simp [Nat.log2]

theorem levels_required_1023 : levels_required 1023 = 10 := by
  rw [levels_required_log2 1023 (by norm_num) (by norm_num)]
  simp [Nat.log2]

theorem levels_required_1024 : levels_required 1024 = 11 := by
  rw [levels_required_log2 1024 (by norm_num) (by norm_num)]
  simp [Nat.log2]

/-- C8: the level-count law.  `levels_required 0 = levels_required 1 = 1`, the
required height is `⌊log₂ n⌋ + 1` for every `n ≥ 1` in the `usize` range
(so it grows by exactly one each time `n` crosses a power of two), with the
listed concrete values. -/
theorem claim_C8 :
    levels_required 0 = 1 ∧ levels_required 1 = 1 ∧ levels_required 2 = 2 ∧
    levels_required 3 = 2 ∧ levels_required 1023 = 10 ∧ levels_required 1024 = 11 ∧
    ∀ n : Nat, 1 ≤ n → n < 2 ^ 64 → levels_required n = Nat.log2 n + 1 :=
  ⟨levels_required_zero, levels_required_one, levels_required_two,
    levels_required_three, levels_required_1023, levels_required_1024,
    levels_required_log2⟩

/-- C8 witness: the general law applied at the concrete size 5. -/
theorem claim_C8_witness : levels_required 5 = Nat.log2 5 + 1 :=
  claim_C8.2.2.2.2.2.2 5 (by norm_num) (by norm_num)

/-! ## Sentinel construction (claim C10) -/

/-- C10: `head(total_levels)` is only defined for `total_levels ≥ 1`, where it
yields a node with value `None`, level `total_levels - 1`, `total_levels` null
links, `total_levels` zero spans and a null `prev`; for `total_levels = 0` the
`usize` subtraction `total_levels - 1` underflows (a panic in checked builds),
modelled as `none`, rather than producing a sentinel. -/
theorem claim_C10 (V : Type u) :
    SkipNodeRaw.head V 0 = none ∧
    ∀ total_levels : Nat, 1 ≤ total_levels →
      SkipNodeRaw.head V total_levels =
        some { value := none, level := total_levels - 1, prev := none,
               links := List.replicate total_levels none,
               links_len := List.replicate total_levels 0 } := by
  constructor
  · simp [SkipNodeRaw.head, checkedSub]
  · intro tl h
    simp [SkipNodeRaw.head, checkedSub, h]

/-- C10 witness: the sentinel of height 3. -/
theorem claim_C10_witness :
    SkipNodeRaw.head Nat 3 =
      some { value := none, level := 2, prev := none,
             links := [none, none, none], links_len := [0, 0, 0] } :=
  (claim_C10 Nat).2 3 (by norm_num)

/-! ## Iterative teardown (claim C9) -/

theorem dropIter_drop {V : Type u} (chain : List (SkipNode V)) :
    ∀ k : Nat, k ≤ chain.length →
      SkipList.dropIter^[k] (some chain) = some (chain.drop k) := by
  intro k
  induction k with
  | zero => intro _; simp
  | succ k ih =>
    intro hk
    rw [Function.iterate_succ_apply', ih (Nat.le_of_succ_le hk)]
    have hlt : k < chain.length := hk
    cases hdk : chain.drop k with
    | nil =>
      exfalso
      have := List.drop_eq_nil_iff.mp hdk
      omega
    | cons c rest =>
      have htail : rest = chain.drop (k + 1) := by
        have h2 := List.tail_drop chain k
        rw [hdk] at h2
        simpa using h2
      simp [SkipList.dropIter, SkipList.take_next, htail]

/-- C9: the `Drop` loop repeatedly detaches and takes the level-0 successor:
starting from a holder of a chain of `n` nodes, the `k`-th `take_next` call
(for `k ≤ n`) still succeeds, leaving the chain without its first `k` nodes,
and the loop terminates exactly after call `n + 1`, the first that finds no
successor — i.e. after exactly `n` detachments. -/
theorem claim_C9 {V : Type u} (chain : List (SkipNode V)) :
    (∀ k : Nat, k ≤ chain.length →
        SkipList.dropIter^[k] (some chain) = some (chain.drop k)) ∧
    (∀ k : Nat, k ≤ chain.length → SkipList.dropIter^[k] (some chain) ≠ none) ∧
    SkipList.dropIter^[chain.length] (some chain) = some [] ∧
    SkipList.dropIter^[chain.length + 1] (some chain) = none := by
  refine ⟨dropIter_drop chain, ?_, ?_, ?_⟩
  · intro k hk
    rw [dropIter_drop chain k hk]
    simp
  · rw [dropIter_drop chain chain.length (Nat.le_refl _)]
    simp
  · rw [Function.iterate_succ_apply', dropIter_drop chain chain.length (Nat.le_refl _)]
    simp [SkipList.dropIter, SkipList.take_next]

/-- C9 witness: a three-node chain torn down in exactly three detachments. -/
theorem claim_C9_witness :
    SkipList.dropIter^[3]
        (some [SkipNode.new (5 : Nat) 0, SkipNode.new 6 0, SkipNode.new 7 1]) = some [] ∧
    SkipList.dropIter^[4]
        (some [SkipNode.new (5 : Nat) 0, SkipNode.new 6 0, SkipNode.new 7 1]) = none ∧
    SkipList.dropIter^[2]
        (some [SkipNode.new (5 : Nat) 0, SkipNode.new 6 0, SkipNode.new 7 1]) ≠ none := by
  refine ⟨(claim_C9 [SkipNode.new (5 : Nat) 0, SkipNode.new 6 0, SkipNode.new 7 1]).2.2.1,
    (claim_C9 [SkipNode.new (5 : Nat) 0, SkipNode.new 6 0, SkipNode.new 7 1]).2.2.2,
    (claim_C9 [SkipNode.new (5 : Nat) 0, SkipNode.new 6 0, SkipNode.new 7 1]).2.1 2 (by norm_num)⟩

/-! ## Two-ended consuming iteration (claim C6) -/

namespace IntoIter

variable {V : Type u}

theorem runIter_cons_front (ops : List PopEnd) (it : IntoIter V) :
    runIter (PopEnd.front :: ops) it
      = match runIter ops (next it).2 with
        | none => none
        | some r => some ((next it).1.toList ++ r.1, r.2.1, r.2.2) := by
  simp only [runIter]

theorem runIter_cons_back (ops : List PopEnd) (it : IntoIter V) :
    runIter (PopEnd.back :: ops) it
      = match next_back it with
        | none => none
        | some p =>
          match runIter ops p.2 with
          | none => none
          | some r => some (r.1, r.2.1, p.1.toList ++ r.2.2) := by
  simp only [runIter]

theorem next_vals (it : IntoIter V) :
    (next it).1.toList ++ remVals (next it).2 = remVals it := by
  match it with
  | ⟨[], sz, fp⟩ => simp [next, remVals]
  | ⟨c :: rest, sz, fp⟩ =>
    cases rest with
    | nil =>
      simp only [next, remVals, List.filterMap_cons, List.filterMap_nil]
      cases h : c.value <;> simp [h]
    | cons r rs =>
      simp only [next, remVals, List.filterMap_cons]
      cases h : c.value <;> simp [h]

theorem next_back_vals {it : IntoIter V} {p : Option V × IntoIter V}
    (h : next_back it = some p) :
    remVals p.2 ++ p.1.toList = remVals it := by
  match it with
  | ⟨[], sz, fp⟩ =>
    simp only [next_back, Option.some.injEq] at h
    subst h
    simp [remVals]
  | ⟨[c], sz, fp⟩ =>
    cases fp with
    | false => simp [next_back] at h
    | true =>
      simp only [next_back, if_true, Option.some.injEq] at h
      subst h
      simp only [remVals, List.filterMap_cons, List.filterMap_nil]
      cases h2 : c.value <;> simp [h2]
  | ⟨c :: r :: rs, sz, fp⟩ =>
    simp only [next_back, Option.some.injEq] at h
    subst h
    have hne : (c :: r :: rs : List (SkipNode V)) ≠ [] := by simp
    have hne2 : (r :: rs : List (SkipNode V)) ≠ [] := by simp
    have hlast : (c :: r :: rs).getLast hne = (r :: rs).getLast hne2 :=
      List.getLast_cons hne2
    conv_rhs => rw [remVals, ← List.dropLast_append_getLast hne]
    simp only [remVals, List.filterMap_append, hlast]
    cases h2 : ((r :: rs).getLast hne2).value <;> simp [h2]

theorem runIter_restore : ∀ (ops : List PopEnd) (it : IntoIter V)
    (r : List V × IntoIter V × List V), runIter ops it = some r →
    r.1 ++ remVals r.2.1 ++ r.2.2.reverse = remVals it := by
  intro ops
  induction ops with
  | nil =>
    intro it r h
    simp only [runIter, Option.some.injEq] at h
    subst h
    simp
  | cons op ops ih =>
    intro it r h
    cases op with
    | front =>
      simp only [runIter] at h
      cases hrec : runIter ops (next it).2 with
      | none => rw [hrec] at h; exact absurd h (by simp)
      | some r2 =>
        rw [hrec] at h
        simp only [Option.some.injEq] at h
        subst h
        have h1 := next_vals it
        have h2 := ih (next it).2 r2 hrec
        simp only [List.append_assoc] at h2 ⊢
        rw [← h1, ← h2]
    | back =>
      simp only [runIter] at h
      cases hnb : next_back it with
      | none => rw [hnb] at h; exact absurd h (by simp)
      | some p =>
        simp only [hnb] at h
        cases hrec : runIter ops p.2 with
        | none => rw [hrec] at h; exact absurd h (by simp)
        | some r2 =>
          rw [hrec] at h
          simp only [Option.some.injEq] at h
          subst h
          have h1 := next_back_vals hnb
          have h2 := ih p.2 r2 hrec
          have htl : (p.1.toList).reverse = p.1.toList := by
            cases p.1 <;> rfl
          simp only [List.reverse_append, List.append_assoc, htl] at h2 ⊢
          rw [← h1, ← h2]
          simp [List.append_assoc]

/-- Consuming purely from the front never touches freed memory and pops the
whole value sequence in order. -/
theorem runIter_fronts (chain : List (SkipNode V)) : ∀ (sz : Nat) (fp : Bool),
    ∃ it2 : IntoIter V,
      runIter (List.replicate chain.length PopEnd.front) ⟨chain, sz, fp⟩
        = some (chain.filterMap SkipNode.value, it2, []) ∧
      it2.first = [] := by
  induction chain with
  | nil =>
    intro sz fp
    exact ⟨⟨[], sz, fp⟩, by simp [runIter], rfl⟩
  | cons c rest ih =>
    intro sz fp
    cases rest with
    | nil =>
      refine ⟨⟨[], sz - 1, fp⟩, ?_, rfl⟩
      simp only [List.length_cons, List.length_nil, List.replicate_succ,
        List.replicate_zero, runIter, next]
      cases h : c.value <;> simp [h]
    | cons r rs =>
      obtain ⟨it2, hrun, hfst⟩ := ih (sz - 1) false
      refine ⟨it2, ?_, hfst⟩
      rw [show (c :: r :: rs : List (SkipNode V)).length
          = (r :: rs : List (SkipNode V)).length + 1 from rfl,
        List.replicate_succ, runIter_cons_front]
      simp only [next]
      rw [hrun]
      simp only [List.filterMap_cons]
      cases h : c.value <;> simp [h]

/-- Consuming purely from the back never touches freed memory (the lone
remaining node still has its null `prev`) and pops the reversed value
sequence. -/
theorem runIter_backs : ∀ (n : Nat) (chain : List (SkipNode V)) (sz : Nat),
    chain.length = n →
    ∃ it2 : IntoIter V,
      runIter (List.replicate n PopEnd.back) ⟨chain, sz, true⟩
        = some ([], it2, (chain.filterMap SkipNode.value).reverse) ∧
      it2.first = [] := by
  intro n
  induction n with
  | zero =>
    intro chain sz hn
    have hc : chain = [] := List.eq_nil_of_length_eq_zero hn
    subst hc
    exact ⟨⟨[], sz, true⟩, by simp [runIter], rfl⟩
  | succ n ih =>
    intro chain sz hn
    cases chain with
    | nil => simp at hn
    | cons c rest =>
      cases rest with
      | nil =>
        have hn0 : n = 0 := by simpa using hn
        subst hn0
        refine ⟨⟨[], sz - 1, true⟩, ?_, rfl⟩
        simp only [List.replicate_succ, List.replicate_zero, runIter, next_back,
          if_true]
        cases h : c.value <;> simp [h]
      | cons r rs =>
        have hlen : ((c :: r :: rs : List (SkipNode V)).dropLast).length = n := by
          simp only [List.length_dropLast, List.length_cons]
          simp only [List.length_cons] at hn
          omega
        obtain ⟨it2, hrun, hfst⟩ := ih ((c :: r :: rs).dropLast) (sz - 1) hlen
        refine ⟨it2, ?_, hfst⟩
        rw [List.replicate_succ, runIter_cons_back]
        simp only [next_back]
        rw [hrun]
        have hne : (c :: r :: rs : List (SkipNode V)) ≠ [] :=
          List.cons_ne_nil c (r :: rs)
        have hsplit : (c :: r :: rs : List (SkipNode V))
            = (c :: r :: rs).dropLast ++ [(c :: r :: rs).getLast hne] :=
          (List.dropLast_append_getLast hne).symm
        conv_rhs => rw [hsplit]
        rw [List.filterMap_append, List.reverse_append]
        cases h : ((r :: rs).getLast (List.cons_ne_nil r rs)).value <;>
          simp [h, List.getLast_cons]

end IntoIter

/-- C6 counterexample: the original claim quantifies over every interleaving
of front and back pops, but on a two-element iterator the interleaving
[front, back] makes the source read freed memory: the front pop frees the
first node and leaves the new front's `prev` dangling at it (`next` never
resets it), and the back pop, finding `(*last).prev` non-null, reclaims
through the freed node — `Box::from_raw` on a value read out of freed
memory.  No popped-front/remainder/popped-back decomposition exists for this
run, so the round-trip identity cannot hold for it. -/
theorem claim_C6_counterexample :
    IntoIter.runIter [IntoIter.PopEnd.front, IntoIter.PopEnd.back]
      (⟨[SkipNode.new (1 : Nat) 0, SkipNode.new 2 0], 2, true⟩ : IntoIter Nat)
      = none ∧
    ¬ ∃ r, IntoIter.runIter [IntoIter.PopEnd.front, IntoIter.PopEnd.back]
      (⟨[SkipNode.new (1 : Nat) 0, SkipNode.new 2 0], 2, true⟩ : IntoIter Nat)
      = some r := by
  refine ⟨rfl, ?_⟩
  rintro ⟨r, hr⟩
  rw [show IntoIter.runIter [IntoIter.PopEnd.front, IntoIter.PopEnd.back]
      (⟨[SkipNode.new (1 : Nat) 0, SkipNode.new 2 0], 2, true⟩ : IntoIter Nat)
      = none from rfl] at hr
  exact absurd hr (by simp)

/-- C6 (amended): whenever an interleaving of front and back pops runs
without touching freed memory, the popped front prefix, followed by the
values remaining in the iterator in order, followed by the reversed popped
back suffix, equals the original level-0 value sequence; pure front-only and
pure back-only full consumptions always run cleanly, and the former yields
the reverse of the latter.  The unrestricted interleaving form is false:
`next` leaves the new front node's `prev` dangling at the freed node, so a
back pop reaching a lone remaining node after any front pop reads freed
memory. -/
theorem claim_C6_amended {V : Type u} (chain : List (SkipNode V)) (sz : Nat)
    (ops : List IntoIter.PopEnd) :
    (∀ r, IntoIter.runIter ops (⟨chain, sz, true⟩ : IntoIter V) = some r →
      r.1 ++ IntoIter.remVals r.2.1 ++ r.2.2.reverse
        = chain.filterMap SkipNode.value) ∧
    ∃ rf rb : List V × IntoIter V × List V,
      IntoIter.runIter (List.replicate chain.length IntoIter.PopEnd.front)
          (⟨chain, sz, true⟩ : IntoIter V) = some rf ∧
      IntoIter.runIter (List.replicate chain.length IntoIter.PopEnd.back)
          (⟨chain, sz, true⟩ : IntoIter V) = some rb ∧
      rf.1 = rb.2.2.reverse := by
  constructor
  · intro r h
    have h2 := IntoIter.runIter_restore ops ⟨chain, sz, true⟩ r h
    simpa [IntoIter.remVals] using h2
  · obtain ⟨it2, hrun, hfst⟩ := IntoIter.runIter_fronts chain sz true
    obtain ⟨it3, hrun3, hfst3⟩ := IntoIter.runIter_backs chain.length chain sz rfl
    exact ⟨_, _, hrun, hrun3, by simp⟩

/-- C6 witness: a clean mixed run on three concrete elements, with the
round-trip identity evaluated. -/
theorem claim_C6_amended_witness :
    ([7] : List Nat) ++ IntoIter.remVals
        (⟨[SkipNode.new (8 : Nat) 0], 1, false⟩ : IntoIter Nat)
      ++ ([9] : List Nat).reverse
      = [SkipNode.new (7 : Nat) 0, SkipNode.new 8 0,
          SkipNode.new 9 0].filterMap SkipNode.value :=
  (claim_C6_amended [SkipNode.new (7 : Nat) 0, SkipNode.new 8 0,
      SkipNode.new 9 0] 3 [IntoIter.PopEnd.front, IntoIter.PopEnd.back]).1
    ([7], ⟨[SkipNode.new 8 0], 1, false⟩, [9]) (by decide)

/-! ## The public `insert` returns nothing (claim C3) -/

/-- C3 counterexample: the claim says the public `insert(self, node, distance)`
returns a reference to the inserted node together with the actual distance
travelled.  In the source `pub fn insert` has no return type: the expression
evaluates to `()` (`insertReturn`), identical across calls whose actual
distances (as reported by the inner `_insert`, here 1 and 3) differ — so no
reading of the public return value can recover the reference or distance. -/
theorem claim_C3_counterexample :
    (SkipList.insertRec (SkipNode.new (37 : Nat) 0) 0 [SkipNode.head 1] 0).2.2 = 1 ∧
    (SkipList.insertRec (SkipNode.new (37 : Nat) 0) 0 exampleList3 2).2.2 = 3 ∧
    SkipList.insertReturn [SkipNode.head 1] (SkipNode.new (37 : Nat) 0) 0 =
      SkipList.insertReturn exampleList3 (SkipNode.new (37 : Nat) 0) 2 ∧
    ¬ ∃ g : Unit → Nat,
        g (SkipList.insertReturn [SkipNode.head 1] (SkipNode.new (37 : Nat) 0) 0) = 1 ∧
        g (SkipList.insertReturn exampleList3 (SkipNode.new (37 : Nat) 0) 2) = 3 := by
  refine ⟨by decide, by decide, rfl, ?_⟩
  rintro ⟨g, h1, h2⟩
  simp only [SkipList.insertReturn] at h1 h2
  rw [h1] at h2
  exact absurd h2 (by norm_num)

/-! ## Basic facts about spans and span updates -/

namespace SkipNode

variable {V : Type u}

@[simp] theorem setSpan_value (nd : SkipNode V) (L v : Nat) :
    (nd.setSpan L v).value = nd.value := rfl

@[simp] theorem setSpan_level (nd : SkipNode V) (L v : Nat) :
    (nd.setSpan L v).level = nd.level := rfl

@[simp] theorem setSpan_len (nd : SkipNode V) (L v : Nat) :
    (nd.setSpan L v).links_len.length = nd.links_len.length := by
  simp [setSpan]

theorem listSet_getD_self : ∀ (l : List Nat) (i : Nat), i < l.length →
    l.set i (l.getD i 0) = l
  | _ :: _, 0, _ => rfl
  | a :: l, i + 1, h =>
    congrArg (a :: ·) (listSet_getD_self l i (by simpa using Nat.lt_of_succ_lt_succ h))

theorem listSet_getD_eq : ∀ (l : List Nat) (i v : Nat), i < l.length →
    (l.set i v).getD i 0 = v
  | _ :: _, 0, _, _ => rfl
  | a :: l, i + 1, v, h =>
    listSet_getD_eq l i v (by simpa using Nat.lt_of_succ_lt_succ h)

theorem listSet_getD_ne : ∀ (l : List Nat) (i j v : Nat), i ≠ j →
    (l.set i v).getD j 0 = l.getD j 0
  | [], _, _, _, _ => by simp
  | a :: l, 0, 0, v, h => absurd rfl h
  | a :: l, 0, j + 1, v, _ => rfl
  | a :: l, i + 1, 0, v, _ => rfl
  | a :: l, i + 1, j + 1, v, h =>
    listSet_getD_ne l i j v (fun hc => h (by rw [hc]))

theorem listGetD_of_le : ∀ (l : List Nat) (i : Nat), l.length ≤ i → l.getD i 0 = 0
  | [], _, _ => by simp
  | _ :: l, i + 1, h => listGetD_of_le l i (by simpa using Nat.le_of_succ_le_succ h)

theorem listGetD_replicate_zero : ∀ (n M : Nat), (List.replicate n (0 : Nat)).getD M 0 = 0
  | 0, _ => rfl
  | _ + 1, 0 => rfl
  | n + 1, M + 1 => listGetD_replicate_zero n M

/-- Setting the span a node already stores changes nothing. -/
theorem setSpan_self (nd : SkipNode V) (L : Nat) (h : L < nd.links_len.length) :
    nd.setSpan L (nd.span L) = nd := by
  cases nd with
  | mk v lvl ll =>
    simp only [setSpan, span]
    rw [listSet_getD_self ll L (by simpa using h)]

/-- A write above the span array is lost (the source never performs one on a
well-formed structure). -/
theorem setSpan_of_le (nd : SkipNode V) (L v : Nat) (h : nd.links_len.length ≤ L) :
    nd.setSpan L v = nd := by
  cases nd with
  | mk vv lvl ll =>
    simp only [setSpan]
    rw [List.set_eq_of_length_le (by simpa using h)]

theorem span_setSpan_eq (nd : SkipNode V) (L v : Nat) (h : L < nd.links_len.length) :
    (nd.setSpan L v).span L = v := by
  cases nd with
  | mk vv lvl ll =>
    simp only [setSpan, span]
    exact listSet_getD_eq ll L v (by simpa using h)

theorem span_setSpan_ne (nd : SkipNode V) (L M v : Nat) (h : L ≠ M) :
    (nd.setSpan L v).span M = nd.span M := by
  cases nd with
  | mk vv lvl ll =>
    simp only [setSpan, span]
    exact listSet_getD_ne ll L M v h

/-- Out-of-range reads give 0. -/
theorem span_of_le (nd : SkipNode V) (M : Nat) (h : nd.links_len.length ≤ M) :
    nd.span M = 0 := by
  cases nd with
  | mk vv lvl ll =>
    simp only [span]
    exact listGetD_of_le ll M (by simpa using h)

@[simp] theorem new_value (v : V) (lvl : Nat) : (new v lvl).value = some v := rfl
@[simp] theorem new_level (v : V) (lvl : Nat) : (new v lvl).level = lvl := rfl
@[simp] theorem new_links_len (v : V) (lvl : Nat) :
    (new v lvl).links_len = List.replicate (lvl + 1) 0 := rfl
theorem new_span (v : V) (lvl M : Nat) : (new v lvl).span M = 0 := by
  simp only [new, span]
  exact listGetD_replicate_zero (lvl + 1) M

end SkipNode

namespace SkipList

variable {V : Type u}

/-! ## `findNext` and `gapAt` -/

@[simp] theorem findNext_nil (L : Nat) : findNext L ([] : List (SkipNode V)) = none := rfl

theorem findNext_cons (L : Nat) (x : SkipNode V) (xs : List (SkipNode V)) :
    findNext L (x :: xs) = if L ≤ x.level then some (x :: xs) else findNext L xs := rfl

theorem findNext_cons_of_le {L : Nat} {x : SkipNode V} (xs : List (SkipNode V))
    (h : L ≤ x.level) : findNext L (x :: xs) = some (x :: xs) := by
  simp [findNext_cons, h]

theorem findNext_cons_of_lt {L : Nat} {x : SkipNode V} (xs : List (SkipNode V))
    (h : x.level < L) : findNext L (x :: xs) = findNext L xs := by
  simp [findNext_cons, Nat.not_le.mpr h]

theorem findNext_length_le {L : Nat} :
    ∀ {xs ys : List (SkipNode V)}, findNext L xs = some ys → ys.length ≤ xs.length
  | [], _, h => by simp [findNext] at h
  | x :: xs, ys, h => by
    by_cases hx : L ≤ x.level
    · simp [findNext, hx] at h
      simp [← h]
    · simp [findNext, hx] at h
      have := findNext_length_le h
      exact Nat.le_succ_of_le this

theorem findNext_none_iff {L : Nat} : ∀ {xs : List (SkipNode V)},
    findNext L xs = none ↔ ∀ nd ∈ xs, nd.level < L
  | [] => by simp
  | x :: xs => by
    by_cases hx : L ≤ x.level
    · rw [findNext_cons_of_le xs hx]
      simp only [List.mem_cons]
      constructor
      · intro h
        exact absurd h (by simp)
      · intro h
        exact absurd (h x (Or.inl rfl)) (Nat.not_lt.mpr hx)
    · rw [findNext_cons_of_lt xs (Nat.not_le.mp hx)]
      simp only [List.mem_cons]
      constructor
      · intro h2 nd hnd
        rcases hnd with h3 | h4
        · subst h3
          exact Nat.not_le.mp hx
        · exact findNext_none_iff.mp h2 nd h4
      · intro h2
        exact findNext_none_iff.mpr (fun nd hnd => h2 nd (Or.inr hnd))

theorem findNext_append_pad {L : Nat} : ∀ {P : List (SkipNode V)}
    (xs : List (SkipNode V)), (∀ nd ∈ P, nd.level < L) →
    findNext L (P ++ xs) = findNext L xs
  | [], xs, _ => rfl
  | p :: P, xs, h => by
    rw [List.cons_append, findNext_cons_of_lt _ (h p (by simp))]
    exact findNext_append_pad xs (fun nd hnd => h nd (by simp [hnd]))

theorem findNext_some_decomp {L : Nat} : ∀ {xs t : List (SkipNode V)},
    findNext L xs = some t →
    ∃ P y ys, xs = P ++ y :: ys ∧ t = y :: ys ∧ (∀ nd ∈ P, nd.level < L) ∧ L ≤ y.level
  | [], t, h => by simp at h
  | x :: xs, t, h => by
    by_cases hx : L ≤ x.level
    · rw [findNext_cons_of_le xs hx] at h
      exact ⟨[], x, xs, by simp, by simp [← Option.some.inj h], by simp, hx⟩
    · rw [findNext_cons_of_lt xs (Nat.not_le.mp hx)] at h
      obtain ⟨P, y, ys, hxs, ht, hP, hy⟩ := findNext_some_decomp h
      exact ⟨x :: P, y, ys, by simp [hxs], ht,
        fun nd hnd => by
          rcases List.mem_cons.mp hnd with h1 | h2
          · simpa [h1] using Nat.not_le.mp hx
          · exact hP nd h2, hy⟩

@[simp] theorem gapAt_nil (M : Nat) : gapAt M ([] : List (SkipNode V)) = 0 := rfl

theorem gapAt_cons (M : Nat) (x : SkipNode V) (xs : List (SkipNode V)) :
    gapAt M (x :: xs) = if M ≤ x.level then 1 else gapAt M xs + 1 := by
  by_cases hx : M ≤ x.level
  · simp [gapAt, findNext_cons_of_le xs hx, hx]
  · rw [gapAt, findNext_cons_of_lt xs (Nat.not_le.mp hx)]
    cases h : findNext M xs with
    | none => simp [gapAt, h, hx]
    | some t =>
      have hle := findNext_length_le h
      simp [gapAt, h, hx]
      omega

/-- The stored gap of a node is decided by the cells up to and including the
first later node of height `≥ M`; anything beyond cannot change it. -/
theorem gapAt_stable {M : Nat} {y : SkipNode V} (hy : M ≤ y.level) :
    ∀ (P ys ys' : List (SkipNode V)),
      gapAt M (P ++ y :: ys) = gapAt M (P ++ y :: ys')
  | [], ys, ys' => by simp [gapAt_cons, hy]
  | p :: P, ys, ys' => by
    simp only [List.cons_append, gapAt_cons]
    rw [gapAt_stable hy P ys ys']

theorem gapAt_append_pad {M : Nat} : ∀ {P : List (SkipNode V)}
    (xs : List (SkipNode V)), (∀ nd ∈ P, nd.level < M) →
    gapAt M (P ++ xs) = P.length + gapAt M xs
  | [], xs, _ => by simp
  | p :: P, xs, h => by
    rw [List.cons_append, gapAt_cons, if_neg (Nat.not_le.mpr (h p (by simp))),
      gapAt_append_pad xs (fun nd hnd => h nd (by simp [hnd]))]
    simp [Nat.add_comm, Nat.add_assoc, Nat.add_left_comm]

/-! ## The span invariant characterized along the chain -/

theorem spansOkAux_iff {L : Nat} : ∀ (xs : List (SkipNode V)) (w : Nat),
    spansOkAux L w xs = true ↔
      (w = gapAt L xs ∧ ∀ t, findNext L xs = some t → spansOk L t = true)
  | [], w => by simp [spansOkAux]
  | x :: xs, w => by
    by_cases hx : L ≤ x.level
    · simp only [spansOkAux, if_pos hx, gapAt_cons, findNext_cons_of_le xs hx,
        Bool.and_eq_true, beq_iff_eq, Option.some.injEq]
      constructor
      · rintro ⟨h1, h2⟩
        exact ⟨h1, fun t ht => ht ▸ (show spansOk L (x :: xs) = true by simpa [spansOk] using h2)⟩
      · rintro ⟨h1, h2⟩
        exact ⟨h1, by simpa [spansOk] using h2 (x :: xs) rfl⟩
    · have hx2 := Nat.not_le.mp hx
      simp only [spansOkAux, if_neg hx, findNext_cons_of_lt xs hx2, gapAt_cons,
        Bool.and_eq_true, decide_eq_true_eq, spansOkAux_iff xs (w - 1)]
      constructor
      · rintro ⟨h1, h2, h3⟩
        exact ⟨by omega, h3⟩
      · rintro ⟨h1, h2⟩
        exact ⟨by omega, by omega, h2⟩

theorem spansOk_cons_iff {L : Nat} (c : SkipNode V) (rest : List (SkipNode V)) :
    spansOk L (c :: rest) = true ↔
      (c.span L = gapAt L rest ∧ ∀ t, findNext L rest = some t → spansOk L t = true) := by
  simpa [spansOk] using spansOkAux_iff rest (c.span L)

theorem spansOk_head {L : Nat} {c : SkipNode V} {rest : List (SkipNode V)}
    (h : spansOk L (c :: rest) = true) : c.span L = gapAt L rest :=
  ((spansOk_cons_iff c rest).mp h).1

theorem spansOk_next {L : Nat} {c : SkipNode V} {rest t : List (SkipNode V)}
    (h : spansOk L (c :: rest) = true) (ht : findNext L rest = some t) :
    spansOk L t = true :=
  ((spansOk_cons_iff c rest).mp h).2 t ht

theorem spansOk_of_parts {L : Nat} {c : SkipNode V} {rest : List (SkipNode V)}
    (h1 : c.span L = gapAt L rest)
    (h2 : ∀ t, findNext L rest = some t → spansOk L t = true) :
    spansOk L (c :: rest) = true :=
  (spansOk_cons_iff c rest).mpr ⟨h1, h2⟩

/-- The first node of height `≥ M` in `P ++ x :: B` is found at or before
`x` itself. -/
theorem findNext_chain_suffix {M : Nat} {x : SkipNode V} (hx : M ≤ x.level) :
    ∀ (P B : List (SkipNode V)), ∃ A2, findNext M (P ++ x :: B) = some (A2 ++ x :: B) ∧
      A2.length ≤ P.length
  | [], B => ⟨[], by simpa using findNext_cons_of_le B hx, by simp⟩
  | p :: P, B => by
    by_cases hp : M ≤ p.level
    · exact ⟨p :: P, by simpa using findNext_cons_of_le _ hp, by simp⟩
    · obtain ⟨A2, h1, h2⟩ := findNext_chain_suffix hx P B
      refine ⟨A2, ?_, by simpa using Nat.le_succ_of_le h2⟩
      rw [List.cons_append, findNext_cons_of_lt _ (Nat.not_le.mp hp)]
      exact h1

/-- The span invariant restricts to the suffix at any node on the chain. -/
theorem spansOk_decomp {M : Nat} : ∀ (n : Nat) {A : List (SkipNode V)}
    {x : SkipNode V} {B : List (SkipNode V)}, A.length ≤ n →
    spansOk M (A ++ x :: B) = true → (A = [] ∨ M ≤ x.level) →
    spansOk M (x :: B) = true := by
  intro n
  induction n with
  | zero =>
    intro A x B hn hs _
    have hA : A = [] := List.eq_nil_of_length_eq_zero (Nat.le_zero.mp hn)
    rwa [hA] at hs
  | succ n ih =>
    intro A x B hn hs hx
    match A with
    | [] => exact hs
    | a :: A1 =>
      have hx2 : M ≤ x.level := by
        rcases hx with h | h
        · exact absurd h (by simp)
        · exact h
      obtain ⟨A2, hfind, hlen⟩ := findNext_chain_suffix hx2 A1 B
      have hsx : spansOk M (A2 ++ x :: B) = true :=
        spansOk_next
          (show spansOk M (a :: (A1 ++ x :: B)) = true by simpa using hs) hfind
      match A2, hfind with
      | [], _ => simpa using hsx
      | a2 :: A3, _ =>
        refine ih (A := a2 :: A3) ?_ hsx (Or.inr hx2)
        simp only [List.length_cons] at hn hlen ⊢
        omega

/-- Positional reading of the span invariant: any node of sufficient height
stores exactly its gap. -/
theorem spansOk_span_eq {M : Nat} {s A B : List (SkipNode V)} {x : SkipNode V}
    (hs : spansOk M s = true) (hdec : s = A ++ x :: B) (hx : A = [] ∨ M ≤ x.level) :
    x.span M = gapAt M B :=
  spansOk_head (spansOk_decomp A.length (Nat.le_refl _) (hdec ▸ hs) hx)

/-! ## Step lemmas for the traversal loop -/

theorem advW_pad {σ : Type} {L : Nat}
    {pred : σ → List (SkipNode V) → List (SkipNode V) → Bool × σ} :
    ∀ {P : List (SkipNode V)} (cur r : List (SkipNode V)) (st : σ),
    (∀ nd ∈ P, nd.level < L) →
    advW L pred cur (P ++ r) st = advW L pred cur r st
  | [], cur, r, st, _ => rfl
  | p :: P, cur, r, st, h => by
    rw [List.cons_append, advW, if_neg (Nat.not_le.mpr (h p (by simp)))]
    exact advW_pad cur r st (fun nd hnd => h nd (by simp [hnd]))

theorem advance_while_none {σ : Type} {L : Nat}
    {pred : σ → List (SkipNode V) → List (SkipNode V) → Bool × σ}
    {c : SkipNode V} {rest : List (SkipNode V)} {st : σ}
    (h : findNext L rest = none) :
    advance_while L pred (c :: rest) st = (c :: rest, 0, st) := by
  rw [advance_while]
  have hp : ∀ nd ∈ rest, nd.level < L := findNext_none_iff.mp h
  have h2 : advW L pred (c :: rest) (rest ++ []) st
      = advW L pred (c :: rest) [] st := advW_pad (c :: rest) [] st hp
  simpa [advW] using h2

theorem advance_while_step {σ : Type} {L : Nat}
    {pred : σ → List (SkipNode V) → List (SkipNode V) → Bool × σ}
    {c : SkipNode V} {rest t : List (SkipNode V)} {st : σ}
    (h : findNext L rest = some t) :
    advance_while L pred (c :: rest) st =
      match pred st (c :: rest) t with
      | (true, st1) =>
        ((advance_while L pred t st1).1,
          c.span L + (advance_while L pred t st1).2.1,
          (advance_while L pred t st1).2.2)
      | (false, st1) => (c :: rest, 0, st1) := by
  obtain ⟨P, y, ys, hxs, ht, hP, hy⟩ := findNext_some_decomp h
  subst ht
  subst hxs
  simp only [advance_while]
  rw [advW_pad (c :: (P ++ y :: ys)) (y :: ys) st hP]
  rcases hpred : pred st (c :: (P ++ y :: ys)) (y :: ys) with ⟨bb, st1⟩
  cases bb
  · simp [advW, if_pos hy, hpred]
  · simp [advW, if_pos hy, hpred, hdSpan]

theorem advance_atmost_none {L : Nat} {c : SkipNode V} {rest : List (SkipNode V)}
    {b : Nat} (h : findNext L rest = none) :
    advance_atmost L (c :: rest) b = (c :: rest, 0) := by
  rw [advance_atmost, advance_while_none h]

theorem advance_atmost_step_le {L : Nat} {c : SkipNode V} {rest t : List (SkipNode V)}
    {b : Nat} (h : findNext L rest = some t) (hle : c.span L ≤ b) :
    advance_atmost L (c :: rest) b =
      ((advance_atmost L t (b - c.span L)).1,
        c.span L + (advance_atmost L t (b - c.span L)).2) := by
  rw [advance_atmost, advance_while_step h]
  simp only [hdSpan]
  rw [if_pos hle]
  simp only [advance_atmost]
  constructor

theorem advance_atmost_step_gt {L : Nat} {c : SkipNode V} {rest t : List (SkipNode V)}
    {b : Nat} (h : findNext L rest = some t) (hgt : b < c.span L) :
    advance_atmost L (c :: rest) b = (c :: rest, 0) := by
  rw [advance_atmost, advance_while_step h]
  simp only [hdSpan]
  rw [if_neg (Nat.not_le.mpr hgt)]

/-- The search always lands on a suffix: there is a `k ≤ rest.length` with
result `(c :: rest).drop k`, distance `k` being bounded by the budget is not
stated here (it needs the span invariant). -/
theorem advance_atmost_suffix {L : Nat} : ∀ (n : Nat) (c : SkipNode V)
    (rest : List (SkipNode V)) (b : Nat), rest.length ≤ n →
    ∃ k, k ≤ rest.length ∧ (advance_atmost L (c :: rest) b).1 = (c :: rest).drop k := by
  intro n
  induction n with
  | zero =>
    intro c rest b hn
    have hr : rest = [] := List.eq_nil_of_length_eq_zero (Nat.le_zero.mp hn)
    subst hr
    refine ⟨0, by simp, ?_⟩
    rw [advance_atmost_none (by simp)]
    rfl
  | succ n ih =>
    intro c rest b hn
    cases hf : findNext L rest with
    | none =>
      refine ⟨0, by simp, ?_⟩
      rw [advance_atmost_none hf]
      rfl
    | some t =>
      by_cases hle : c.span L ≤ b
      · obtain ⟨P, y, ys, hxs, ht, hP, hy⟩ := findNext_some_decomp hf
        subst ht
        obtain ⟨k, hk, hres⟩ := ih y ys (b - c.span L) (by
          have hlen := findNext_length_le hf
          simp only [hxs, List.length_append, List.length_cons] at hn
          simp only [List.length_cons] at hlen
          omega)
        refine ⟨P.length + 1 + k, ?_, ?_⟩
        · simp only [hxs, List.length_append, List.length_cons]
          omega
        · rw [advance_atmost_step_le hf hle]
          simp only [hres]
          rw [hxs,
            show c :: (P ++ y :: ys) = (c :: P) ++ (y :: ys) from by simp,
            show P.length + 1 + k = (c :: P).length + k from by simp,
            List.drop_append]
      · refine ⟨0, by simp, ?_⟩
        rw [advance_atmost_step_gt hf (Nat.not_le.mp hle)]
        rfl

theorem listTake_append {α : Type u} (A B : List α) (m : Nat) :
    (A ++ B).take (A.length + m) = A ++ B.take m := by simp [List.take_append]

theorem listDrop_append {α : Type u} (A B : List α) (m : Nat) :
    (A ++ B).drop (A.length + m) = B.drop m := by simp [List.drop_append]

theorem take_len_of_le {α : Type u} (l : List α) (m : Nat) (hm : m ≤ l.length) :
    (l.take m).length = m := by
  simp only [List.length_take]
  omega

theorem take_glue {c : SkipNode V} (P T X : List (SkipNode V)) (m : Nat) :
    (c :: (P ++ T)).take (P.length + 1 + m) ++ X
      = (c :: (P ++ T)).take (P.length + 1) ++ (T.take m ++ X) := by
  have h1 : c :: (P ++ T) = (c :: P) ++ T := by simp
  rw [h1, show P.length + 1 + m = (c :: P).length + m by simp,
      show P.length + 1 = (c :: P).length + 0 by simp,
      listTake_append, listTake_append]
  simp [List.append_assoc]

theorem take_suffix_glue (c : SkipNode V) (P T X : List (SkipNode V)) (n : Nat)
    (hn : n ≤ T.length) :
    (c :: (P ++ T)).take ((c :: (P ++ T)).length - n) ++ X
      = (c :: (P ++ T)).take ((c :: (P ++ T)).length - T.length)
          ++ (T.take (T.length - n) ++ X) := by
  have h1 : (c :: (P ++ T)).length - n = P.length + 1 + (T.length - n) := by
    simp only [List.length_cons, List.length_append]
    omega
  have h2 : (c :: (P ++ T)).length - T.length = P.length + 1 := by
    simp only [List.length_cons, List.length_append]
    omega
  rw [h1, h2]
  exact take_glue P T X (T.length - n)

/-- Crossing the first link the search takes at level `L` commutes with the
whole of `_insert`: the cells up to that link are untouched, and reference and
distance grow by the crossed prefix/span. -/
theorem insertRec_peel {new : SkipNode V} {L : Nat} {c : SkipNode V}
    {rest t : List (SkipNode V)} {b : Nat}
    (h : findNext L rest = some t) (hle : c.span L ≤ b) :
    insertRec new L (c :: rest) b =
      ((c :: rest).take ((c :: rest).length - t.length)
          ++ (insertRec new L t (b - c.span L)).1,
        ((c :: rest).length - t.length) + (insertRec new L t (b - c.span L)).2.1,
        c.span L + (insertRec new L t (b - c.span L)).2.2) := by
  obtain ⟨P, y, ys, hxs, ht, hP, hy⟩ := findNext_some_decomp h
  subst ht
  subst hxs
  obtain ⟨k, hk, hA⟩ :=
    advance_atmost_suffix (L := L) ys.length y ys (b - c.span L) (Nat.le_refl _)
  cases hA2 : (advance_atmost L (y :: ys) (b - c.span L)).1 with
  | nil =>
    rw [hA2] at hA
    have hlen := congrArg List.length hA
    simp at hlen
    omega
  | cons prev tail =>
    have hklen : (prev :: tail).length = (ys.length - k) + 1 := by
      rw [← hA2, hA]
      simp
      omega
    have hslen : (c :: (P ++ y :: ys)).length = P.length + ys.length + 2 := by
      simp only [List.length_cons, List.length_append]
      omega
    have htlen : (y :: ys : List (SkipNode V)).length = ys.length + 1 := by simp
    have hnle : (prev :: tail).length ≤ (y :: ys : List (SkipNode V)).length := by
      rw [hklen, htlen]
      omega
    cases L with
    | zero =>
      simp only [insertRec]
      rw [advance_atmost_step_le h hle, hA2]
      cases tail with
      | nil =>
        simp only [Prod.mk.injEq]
        refine ⟨?_, ?_, by omega⟩
        · exact take_suffix_glue c P (y :: ys) _ 1 (by simp)
        · rw [take_len_of_le _ _ (Nat.sub_le _ _), take_len_of_le _ _ (Nat.sub_le _ _)]
          simp only [List.length_cons] at hklen
          omega
      | cons t2 ts2 =>
        simp only [Prod.mk.injEq]
        refine ⟨?_, ?_, by omega⟩
        · exact take_suffix_glue c P (y :: ys) _ (ts2.length + 1 + 1) (by
            simpa [htlen] using hnle)
        · rw [take_len_of_le _ _ (Nat.sub_le _ _), take_len_of_le _ _ (Nat.sub_le _ _)]
          simp only [List.length_cons] at hklen hnle
          simp only [List.length_cons, hslen, htlen]
          omega
    | succ L1 =>
      simp only [insertRec]
      rw [advance_atmost_step_le h hle, hA2]
      rw [show b - (c.span (L1 + 1) + (advance_atmost (L1 + 1) (y :: ys)
            (b - c.span (L1 + 1))).2)
          = b - c.span (L1 + 1) - (advance_atmost (L1 + 1) (y :: ys)
            (b - c.span (L1 + 1))).2 from (Nat.sub_sub b _ _).symm]
      simp only [Prod.mk.injEq]
      refine ⟨?_, ?_, by omega⟩
      · exact take_suffix_glue c P (y :: ys) _ (prev :: tail).length hnle
      · rw [take_len_of_le _ _ (Nat.sub_le _ _), take_len_of_le _ _ (Nat.sub_le _ _)]
        simp only [List.length_cons] at hklen hnle
        simp only [List.length_cons, hslen, htlen]
        omega

@[simp] theorem setSpansUpto_value (L : Nat) (nd : SkipNode V)
    (rest : List (SkipNode V)) : (setSpansUpto L nd rest).value = nd.value := by
  induction L with
  | zero => rfl
  | succ L ih => simp [setSpansUpto, ih]

@[simp] theorem setSpansUpto_level (L : Nat) (nd : SkipNode V)
    (rest : List (SkipNode V)) : (setSpansUpto L nd rest).level = nd.level := by
  induction L with
  | zero => rfl
  | succ L ih => simp [setSpansUpto, ih]

@[simp] theorem setSpansUpto_len (L : Nat) (nd : SkipNode V)
    (rest : List (SkipNode V)) :
    (setSpansUpto L nd rest).links_len.length = nd.links_len.length := by
  induction L with
  | zero => simp [setSpansUpto]
  | succ L ih => simp [setSpansUpto, ih]

theorem setSpansUpto_span_high {L M : Nat} (h : L < M) (nd : SkipNode V)
    (rest : List (SkipNode V)) :
    (setSpansUpto L nd rest).span M = nd.span M := by
  induction L with
  | zero => exact SkipNode.span_setSpan_ne _ _ _ _ (by omega)
  | succ L ih =>
    rw [setSpansUpto, SkipNode.span_setSpan_ne _ _ _ _ (by omega)]
    exact ih (by omega)

theorem setSpansUpto_span_le {L M : Nat} (h : M ≤ L) {nd : SkipNode V}
    (hlen : M < nd.links_len.length) (rest : List (SkipNode V)) :
    (setSpansUpto L nd rest).span M = gapAt M rest := by
  induction L with
  | zero =>
    have hM : M = 0 := Nat.le_zero.mp h
    subst hM
    exact SkipNode.span_setSpan_eq _ _ _ hlen
  | succ L ih =>
    rcases Nat.lt_or_ge M (L + 1) with h2 | h2
    · rw [setSpansUpto, SkipNode.span_setSpan_ne _ _ _ _ (by omega)]
      exact ih (by omega)
    · have hM : M = L + 1 := by omega
      subst hM
      rw [setSpansUpto,
        SkipNode.span_setSpan_eq _ _ _ (by simpa using hlen)]

theorem setSpansUpto_span_le_out {L M : Nat} (h : M ≤ L) {nd : SkipNode V}
    (hlen : nd.links_len.length ≤ M) (rest : List (SkipNode V)) :
    (setSpansUpto L nd rest).span M = nd.span M := by
  induction L with
  | zero =>
    have hM : M = 0 := Nat.le_zero.mp h
    subst hM
    rw [setSpansUpto, SkipNode.setSpan_of_le _ _ _ hlen]
  | succ L ih =>
    rcases Nat.lt_or_ge M (L + 1) with h2 | h2
    · rw [setSpansUpto, SkipNode.span_setSpan_ne _ _ _ _ (by omega)]
      exact ih (by omega)
    · have hM : M = L + 1 := by omega
      subst hM
      rw [setSpansUpto, SkipNode.setSpan_of_le _ _ _ (by simpa using hlen)]
      exact setSpansUpto_span_high (by omega) nd rest

/-- A node already storing every canonical gap is untouched. -/
theorem setSpansUpto_eq_self {a : SkipNode V}
    (hlen : a.links_len.length = a.level + 1) :
    ∀ (L : Nat) (T : List (SkipNode V)),
      (∀ M, M ≤ L → M ≤ a.level → a.span M = gapAt M T) →
      setSpansUpto L a T = a
  | 0, T, h => by
    rw [setSpansUpto, ← h 0 (Nat.le_refl 0) (Nat.zero_le _)]
    exact SkipNode.setSpan_self a 0 (by omega)
  | L + 1, T, h => by
    rw [setSpansUpto, setSpansUpto_eq_self hlen L T
      (fun M hM hM2 => h M (Nat.le_succ_of_le hM) hM2)]
    rcases Nat.lt_or_ge (L + 1) (a.level + 1) with h2 | h2
    · rw [← h (L + 1) (Nat.le_refl _) (by omega)]
      exact SkipNode.setSpan_self a (L + 1) (by omega)
    · exact SkipNode.setSpan_of_le a _ _ (by omega)

@[simp] theorem fixUpto_nil (L : Nat) : fixUpto L ([] : List (SkipNode V)) = [] := rfl

theorem fixUpto_cons (L : Nat) (c : SkipNode V) (rest : List (SkipNode V)) :
    fixUpto L (c :: rest) = setSpansUpto L c rest :: fixUpto L rest := rfl

@[simp] theorem fixUpto_length (L : Nat) : ∀ (t : List (SkipNode V)),
    (fixUpto L t).length = t.length
  | [] => rfl
  | c :: rest => by simp [fixUpto_cons, fixUpto_length L rest]

theorem findNext_fixUpto (M L : Nat) : ∀ (t : List (SkipNode V)),
    findNext M (fixUpto L t) = Option.map (fun u => fixUpto L u) (findNext M t)
  | [] => rfl
  | x :: xs => by
    by_cases hx : M ≤ x.level
    · rw [fixUpto_cons, findNext_cons_of_le _ (by simpa using hx),
        findNext_cons_of_le _ hx]
      rfl
    · rw [fixUpto_cons, findNext_cons_of_lt _ (by simpa using Nat.not_le.mp hx),
        findNext_cons_of_lt _ (Nat.not_le.mp hx)]
      exact findNext_fixUpto M L xs

theorem gapAt_fixUpto (M L : Nat) (t : List (SkipNode V)) :
    gapAt M (fixUpto L t) = gapAt M t := by
  rw [gapAt, gapAt, findNext_fixUpto]
  cases h : findNext M t with
  | none => simp
  | some u =>
    have := findNext_length_le h
    simp [fixUpto_length]

/-- Nodes already storing their canonical gaps pass through `fixUpto`
unchanged, so fixing distributes over such a prefix. -/
theorem fixUpto_append_of_fixed {L : Nat} : ∀ (A B : List (SkipNode V)),
    (∀ A1 a A2, A = A1 ++ a :: A2 → setSpansUpto L a (A2 ++ B) = a) →
    fixUpto L (A ++ B) = A ++ fixUpto L B
  | [], B, _ => rfl
  | a :: A, B, h => by
    rw [List.cons_append, fixUpto_cons, h [] a A rfl,
      fixUpto_append_of_fixed A B
        (fun A1 a2 A2 hA => h (a :: A1) a2 A2 (by simp [hA]))]
    rfl

theorem fixAt_cons (M : Nat) (c : SkipNode V) (rest : List (SkipNode V)) :
    fixAt M (c :: rest) = c.setSpan M (gapAt M rest) :: fixAt M rest := rfl

/-- `fixUpto (L+1)` is `fixUpto L` followed by fixing level `L+1`. -/
theorem fixUpto_succ (L : Nat) : ∀ (t : List (SkipNode V)),
    fixUpto (L + 1) t = fixAt (L + 1) (fixUpto L t)
  | [] => rfl
  | c :: rest => by
    rw [fixUpto_cons, fixUpto_cons, fixAt_cons, ← fixUpto_succ L rest, gapAt_fixUpto]
    rfl

/-! ## Positional access toolkit -/

theorem listExt {α : Type u} (d : α) : ∀ (u v : List α), u.length = v.length →
    (∀ i, i < u.length → u.getD i d = v.getD i d) → u = v
  | [], [], _, _ => rfl
  | [], _ :: _, h, _ => by simp at h
  | _ :: _, [], h, _ => by simp at h
  | a :: u, b :: v, h, hi => by
    have h0 : a = b := hi 0 (by simp)
    rw [h0, listExt d u v (by simpa using h)
      (fun i hilt => hi (i + 1) (by simpa using Nat.succ_lt_succ hilt))]

theorem listGetD_cons_zero {α : Type u} (d a : α) (l : List α) :
    (a :: l).getD 0 d = a := rfl

theorem listGetD_cons_succ {α : Type u} (d a : α) (l : List α) (i : Nat) :
    (a :: l).getD (i + 1) d = l.getD i d := rfl

theorem listGetD_append_left {α : Type u} (d : α) : ∀ (A B : List α) (i : Nat),
    i < A.length → (A ++ B).getD i d = A.getD i d
  | a :: A, B, 0, _ => rfl
  | a :: A, B, i + 1, h =>
    listGetD_append_left d A B i (by simpa using Nat.lt_of_succ_lt_succ h)

theorem listGetD_append_right {α : Type u} (d : α) : ∀ (A B : List α) (i : Nat),
    (A ++ B).getD (A.length + i) d = B.getD i d
  | [], B, i => by simp
  | a :: A, B, i => by
    rw [List.cons_append, show (a :: A).length + i = (A.length + i) + 1 by simp; omega,
      listGetD_cons_succ]
    exact listGetD_append_right d A B i

theorem listGetD_take {α : Type u} (d : α) : ∀ (l : List α) (q i : Nat), i < q →
    (l.take q).getD i d = l.getD i d
  | [], _, _, _ => by simp
  | a :: l, q + 1, 0, _ => rfl
  | a :: l, q + 1, i + 1, h =>
    listGetD_take d l q i (Nat.lt_of_succ_lt_succ h)

theorem listGetD_drop {α : Type u} (d : α) : ∀ (l : List α) (q i : Nat),
    (l.drop q).getD i d = l.getD (q + i) d
  | l, 0, i => by simp
  | [], q + 1, i => by simp
  | a :: l, q + 1, i => by
    rw [List.drop_succ_cons, show q + 1 + i = (q + i) + 1 by omega, listGetD_cons_succ]
    exact listGetD_drop d l q i

theorem listGetD_mem {α : Type u} (d : α) : ∀ (l : List α) (i : Nat),
    i < l.length → l.getD i d ∈ l
  | a :: l, 0, _ => by simp
  | a :: l, i + 1, h => by
    simp only [listGetD_cons_succ, List.mem_cons]
    exact Or.inr (listGetD_mem d l i (by simpa using Nat.lt_of_succ_lt_succ h))

theorem listGetD_of_length_le {α : Type u} (d : α) : ∀ (l : List α) (i : Nat),
    l.length ≤ i → l.getD i d = d
  | [], i, _ => by cases i <;> rfl
  | a :: l, i + 1, h => listGetD_of_length_le d l i (by simpa using Nat.le_of_succ_le_succ h)

theorem fixUpto_getD (L : Nat) : ∀ (t : List (SkipNode V)) (i : Nat), i < t.length →
    (fixUpto L t).getD i dflt = setSpansUpto L (t.getD i dflt) (t.drop (i + 1))
  | c :: rest, 0, _ => by
    rw [fixUpto_cons, listGetD_cons_zero, listGetD_cons_zero, List.drop_one]
    rfl
  | c :: rest, i + 1, h => by
    rw [fixUpto_cons, listGetD_cons_succ, listGetD_cons_succ, List.drop_succ_cons]
    exact fixUpto_getD L rest i (by simpa using Nat.lt_of_succ_lt_succ h)

theorem fixUpto_drop (L : Nat) : ∀ (t : List (SkipNode V)) (k : Nat),
    (fixUpto L t).drop k = fixUpto L (t.drop k)
  | t, 0 => by simp
  | [], k + 1 => by simp
  | c :: rest, k + 1 => by
    rw [fixUpto_cons, List.drop_succ_cons, List.drop_succ_cons]
    exact fixUpto_drop L rest k

theorem fixAt_getD (M : Nat) : ∀ (t : List (SkipNode V)) (i : Nat), i < t.length →
    (fixAt M t).getD i dflt = (t.getD i dflt).setSpan M (gapAt M (t.drop (i + 1)))
  | c :: rest, 0, _ => by
    rw [fixAt_cons, listGetD_cons_zero, listGetD_cons_zero, List.drop_one]
    rfl
  | c :: rest, i + 1, h => by
    rw [fixAt_cons, listGetD_cons_succ, listGetD_cons_succ, List.drop_succ_cons]
    exact fixAt_getD M rest i (by simpa using Nat.lt_of_succ_lt_succ h)

@[simp] theorem fixAt_length (M : Nat) : ∀ (t : List (SkipNode V)),
    (fixAt M t).length = t.length
  | [] => rfl
  | c :: rest => by simp [fixAt_cons, fixAt_length M rest]

@[simp] theorem modifyAt_length (f : SkipNode V → SkipNode V) :
    ∀ (i : Nat) (t : List (SkipNode V)), (modifyAt f i t).length = t.length
  | i, [] => by cases i <;> rfl
  | 0, c :: rest => rfl
  | i + 1, c :: rest => by simp [modifyAt, modifyAt_length f i rest]

theorem modifyAt_getD_eq (f : SkipNode V → SkipNode V) :
    ∀ (i : Nat) (t : List (SkipNode V)), i < t.length →
    (modifyAt f i t).getD i dflt = f (t.getD i dflt)
  | 0, c :: rest, _ => rfl
  | i + 1, c :: rest, h => by
    rw [modifyAt, listGetD_cons_succ, listGetD_cons_succ]
    exact modifyAt_getD_eq f i rest (by simpa using Nat.lt_of_succ_lt_succ h)

theorem modifyAt_getD_ne (f : SkipNode V → SkipNode V) :
    ∀ (i j : Nat) (t : List (SkipNode V)), i ≠ j →
    (modifyAt f i t).getD j dflt = t.getD j dflt
  | i, j, [], _ => by cases i <;> rfl
  | 0, 0, c :: rest, h => absurd rfl h
  | 0, j + 1, c :: rest, _ => rfl
  | i + 1, 0, c :: rest, _ => rfl
  | i + 1, j + 1, c :: rest, h => by
    rw [modifyAt, listGetD_cons_succ, listGetD_cons_succ]
    exact modifyAt_getD_ne f i j rest (fun hc => h (by rw [hc]))

/-! ## Shape of the raw insertion -/

theorem list_decomp_at {α : Type u} (d : α) : ∀ (l : List α) (j : Nat), j < l.length →
    l = l.take j ++ l.getD j d :: l.drop (j + 1)
  | a :: l, 0, _ => by simp
  | a :: l, j + 1, h => by
    rw [List.take_succ_cons, List.drop_succ_cons, listGetD_cons_succ, List.cons_append]
    exact congrArg (a :: ·) (list_decomp_at d l j (by simpa using Nat.lt_of_succ_lt_succ h))

@[simp] theorem rawIns_length (s : List (SkipNode V)) (q : Nat) (new : SkipNode V)
    (hq : q + 1 ≤ s.length) : (rawIns s q new).length = s.length + 1 := by
  rw [rawIns]
  simp only [List.length_append, List.length_cons, List.length_take, List.length_drop]
  omega

theorem rawIns_cons {c : SkipNode V} {rest : List (SkipNode V)} {q : Nat}
    {new : SkipNode V} (hq : q ≤ rest.length) :
    rawIns (c :: rest) q new = c :: (rest.take q ++ new :: rest.drop q) := by
  rw [rawIns, List.take_succ_cons, List.drop_succ_cons, List.cons_append]

theorem rawIns_getD_lt {s : List (SkipNode V)} {q i : Nat} {new : SkipNode V}
    (hq : q + 1 ≤ s.length) (hi : i < q + 1) :
    (rawIns s q new).getD i dflt = s.getD i dflt := by
  rw [rawIns, listGetD_append_left _ _ _ _ (by rw [take_len_of_le _ _ hq]; omega),
    listGetD_take _ _ _ _ hi]

theorem rawIns_getD_mid {s : List (SkipNode V)} {q : Nat} {new : SkipNode V}
    (hq : q + 1 ≤ s.length) :
    (rawIns s q new).getD (q + 1) dflt = new := by
  have h := listGetD_append_right dflt (s.take (q + 1)) (new :: s.drop (q + 1)) 0
  rw [take_len_of_le _ _ hq, Nat.add_zero] at h
  rw [rawIns, h]
  rfl

theorem rawIns_getD_high {s : List (SkipNode V)} {q i : Nat} {new : SkipNode V}
    (hq : q + 1 ≤ s.length) (hi : q + 1 < i) :
    (rawIns s q new).getD i dflt = s.getD (i - 1) dflt := by
  have h := listGetD_append_right dflt (s.take (q + 1)) (new :: s.drop (q + 1)) (i - q - 1)
  rw [take_len_of_le _ _ hq, show q + 1 + (i - q - 1) = i from by omega] at h
  rw [rawIns, h, show i - q - 1 = (i - q - 2) + 1 from by omega, listGetD_cons_succ,
    listGetD_drop]
  congr 1
  omega

theorem rawIns_drop_high {s : List (SkipNode V)} {q i : Nat} {new : SkipNode V}
    (hq : q + 1 ≤ s.length) (hi : q + 1 ≤ i) :
    (rawIns s q new).drop (i + 1) = s.drop i := by
  have h := listDrop_append (s.take (q + 1)) (new :: s.drop (q + 1)) (i - q)
  rw [take_len_of_le _ _ hq, show q + 1 + (i - q) = i + 1 from by omega] at h
  rw [rawIns, h, show i - q = (i - q - 1) + 1 from by omega, List.drop_succ_cons,
    List.drop_drop]
  congr 1
  omega

theorem hdSpan_cons (L : Nat) (c : SkipNode V) (rest : List (SkipNode V)) :
    hdSpan L (c :: rest) = c.span L := rfl

/-- The frame of `_insert` at level `L+1` when the search cannot move: the
level-`(L+1)` span updates it performs are exactly the canonical fixing of
level `L+1`, given that the levels below behaved canonically. -/
theorem insertRec_succ_nostep {new c : SkipNode V} {rest : List (SkipNode V)}
    {L b : Nat}
    (hspans : ∀ M, M ≤ L + 1 → spansOk M (c :: rest) = true)
    (hlen : ∀ nd ∈ c :: rest, lenOk nd = true)
    (hnew : new.links_len = List.replicate (new.level + 1) 0)
    (hcase : findNext (L + 1) rest = none ∨
      (∃ t, findNext (L + 1) rest = some t ∧ b < c.span (L + 1)))
    (hIH : insertRec new L (c :: rest) b =
      (fixUpto L (rawIns (c :: rest) (min b rest.length) new),
        min b rest.length + 1, min b rest.length + 1)) :
    insertRec new (L + 1) (c :: rest) b =
      (fixUpto (L + 1) (rawIns (c :: rest) (min b rest.length) new),
        min b rest.length + 1, min b rest.length + 1) := by
  set q := min b rest.length with hqdef
  have hq1 : q ≤ rest.length := by omega
  have hq1' : q + 1 ≤ (c :: rest).length := by simp; omega
  have hspan_head : c.span (L + 1) = gapAt (L + 1) rest :=
    spansOk_head (hspans (L + 1) (Nat.le_refl _))
  have hNC : ∀ nd ∈ rest.take q, nd.level < L + 1 := by
    rcases hcase with hnone | ⟨t, hsome, hgt⟩
    · intro nd hnd
      exact findNext_none_iff.mp hnone nd (List.mem_of_mem_take hnd)
    · obtain ⟨P, y, ys, hxs, ht, hP, hy⟩ := findNext_some_decomp hsome
      have hgap : c.span (L + 1) = P.length + 1 := by
        rw [hspan_head, hxs, gapAt_append_pad _ hP, gapAt_cons]
        simp [hy]
      have hqP : q ≤ P.length := by omega
      have htk : rest.take q = P.take q := by
        rw [hxs]
        exact List.take_append_of_le_length hqP
      intro nd hnd
      rw [htk] at hnd
      exact hP nd (List.mem_of_mem_take hnd)
  have hadv : advance_atmost (L + 1) (c :: rest) b = (c :: rest, 0) := by
    rcases hcase with hnone | ⟨t, hsome, hgt⟩
    · exact advance_atmost_none hnone
    · exact advance_atmost_step_gt hsome hgt
  have hXcons : rawIns (c :: rest) q new
      = c :: (rest.take q ++ new :: rest.drop q) := rawIns_cons hq1
  have hXlen : (rawIns (c :: rest) q new).length = rest.length + 2 := by
    rw [rawIns_length _ _ _ hq1']
    simp
  have htklen : (rest.take q).length = q := take_len_of_le _ _ hq1
  have hgsplit : gapAt (L + 1) rest = q + gapAt (L + 1) (rest.drop q) := by
    conv_lhs => rw [← List.take_append_drop q rest]
    rw [gapAt_append_pad _ hNC, htklen]
  have hdrop1 : (rawIns (c :: rest) q new).drop 1
      = rest.take q ++ new :: rest.drop q := by
    rw [hXcons, List.drop_one]
    rfl
  have hdropQ2 : (rawIns (c :: rest) q new).drop (q + 2) = rest.drop q := by
    have h : (rawIns (c :: rest) q new).drop (q + 1 + 1)
        = (c :: rest).drop (q + 1) := rawIns_drop_high hq1' (by omega)
    rw [show q + 1 + 1 = q + 2 from by omega] at h
    rw [h, List.drop_succ_cons]
  have hins : ((fixUpto L (rawIns (c :: rest) q new)).getD (q + 1) dflt).level
      = new.level := by
    rw [fixUpto_getD _ _ _ (by omega), rawIns_getD_mid hq1']
    simp
  have hhd : hdSpan (L + 1) (fixUpto L (rawIns (c :: rest) q new))
      = c.span (L + 1) := by
    rw [hXcons, fixUpto_cons, hdSpan_cons]
    exact setSpansUpto_span_high (by omega) _ _
  have hother : ∀ i, i < rest.length + 2 → 1 ≤ i → i ≠ q + 1 →
      ((fixUpto L (rawIns (c :: rest) q new)).getD i dflt).setSpan (L + 1)
          (gapAt (L + 1) ((fixUpto L (rawIns (c :: rest) q new)).drop (i + 1)))
        = (fixUpto L (rawIns (c :: rest) q new)).getD i dflt := by
    intro i hi h1 hne
    obtain ⟨j, rfl⟩ : ∃ j, i = j + 1 := ⟨i - 1, by omega⟩
    have hiX : j + 1 < (rawIns (c :: rest) q new).length := by omega
    rw [fixUpto_getD _ _ _ hiX, fixUpto_drop, gapAt_fixUpto]
    rcases Nat.lt_or_ge (j + 1) (q + 1) with hlo | hhi
    · have hXi : (rawIns (c :: rest) q new).getD (j + 1) dflt = rest.getD j dflt := by
        rw [rawIns_getD_lt hq1' hlo, listGetD_cons_succ]
      have hmem : rest.getD j dflt ∈ rest.take q := by
        have hlt : j < q := by omega
        rw [← listGetD_take dflt rest q j hlt]
        exact listGetD_mem _ _ _ (by rw [htklen]; omega)
      have hlenOk : (rest.getD j dflt).links_len.length
          = (rest.getD j dflt).level + 1 := by
        have hmem2 : rest.getD j dflt ∈ rest := listGetD_mem _ _ _ (by omega)
        have := hlen (rest.getD j dflt) (List.mem_cons_of_mem _ hmem2)
        simpa [lenOk] using this
      have hlevel : (rest.getD j dflt).level < L + 1 := hNC _ hmem
      rw [hXi]
      refine SkipNode.setSpan_of_le _ _ _ ?_
      rw [setSpansUpto_len, hlenOk]
      omega
    · have hhi2 : q + 1 < j + 1 := by omega
      have hXi : (rawIns (c :: rest) q new).getD (j + 1) dflt
          = (c :: rest).getD j dflt := by
        rw [rawIns_getD_high hq1' hhi2]
        simp
      have hXdrop : (rawIns (c :: rest) q new).drop (j + 1 + 1)
          = (c :: rest).drop (j + 1) := rawIns_drop_high hq1' (by omega)
      have hnode : (c :: rest).getD j dflt ∈ c :: rest :=
        listGetD_mem _ _ _ (by simp; omega)
      have hlenOk : ((c :: rest).getD j dflt).links_len.length
          = ((c :: rest).getD j dflt).level + 1 := by
        have := hlen _ hnode
        simpa [lenOk] using this
      rw [hXi, hXdrop]
      rcases Nat.lt_or_ge ((c :: rest).getD j dflt).level (L + 1) with hlv | hlv
      · refine SkipNode.setSpan_of_le _ _ _ ?_
        rw [setSpansUpto_len, hlenOk]
        omega
      · have hsp : ((c :: rest).getD j dflt).span (L + 1)
            = gapAt (L + 1) ((c :: rest).drop (j + 1)) :=
          spansOk_span_eq (hspans (L + 1) (Nat.le_refl _))
            (list_decomp_at dflt (c :: rest) j (by simp; omega)) (Or.inr hlv)
        have hval : gapAt (L + 1) ((c :: rest).drop (j + 1))
            = (setSpansUpto L ((c :: rest).getD j dflt)
                ((c :: rest).drop (j + 1))).span (L + 1) := by
          rw [setSpansUpto_span_high (by omega)]
          exact hsp.symm
        rw [hval]
        exact SkipNode.setSpan_self _ _ (by rw [setSpansUpto_len, hlenOk]; omega)
  simp only [insertRec]
  rw [hadv]
  simp only [List.length_cons, Nat.sub_self, List.take_zero, List.nil_append,
    Nat.sub_zero, List.length_nil, Nat.zero_add, Nat.add_zero, hIH]
  rw [hins, hhd]
  by_cases hnl : L + 1 ≤ new.level
  · rw [if_pos hnl]
    refine congrArg (fun x => (x, q + 1, q + 1)) ?_
    rw [fixUpto_succ]
    refine listExt dflt _ _ (by simp) ?_
    intro i hi
    have hi2 : i < rest.length + 2 := by
      simp only [modifyAt_length, fixUpto_length, hXlen] at hi
      exact hi
    rw [fixAt_getD _ _ _ (by rw [fixUpto_length, hXlen]; omega)]
    rcases eq_or_ne i 0 with h0 | h0
    · subst h0
      rw [modifyAt_getD_eq _ _ _ (by rw [modifyAt_length, fixUpto_length, hXlen]; omega),
        modifyAt_getD_ne _ _ _ _ (by omega)]
      rw [fixUpto_drop, gapAt_fixUpto, hdrop1,
        gapAt_append_pad _ hNC, gapAt_cons, if_pos hnl, htklen]
    · rcases eq_or_ne i (q + 1) with hq2 | hq2
      · subst hq2
        rw [modifyAt_getD_ne _ _ _ _ (by omega),
          modifyAt_getD_eq _ _ _ (by rw [fixUpto_length, hXlen]; omega)]
        rw [fixUpto_drop, gapAt_fixUpto, hdropQ2]
        congr 1
        rw [hspan_head, hgsplit]
        omega
      · rw [modifyAt_getD_ne _ _ _ _ (by omega),
          modifyAt_getD_ne _ _ _ _ (fun hc => hq2 hc.symm)]
        exact (hother i hi2 (by omega) hq2).symm
  · rw [if_neg hnl]
    refine congrArg (fun x => (x, q + 1, q + 1)) ?_
    rw [fixUpto_succ]
    refine listExt dflt _ _ (by simp) ?_
    intro i hi
    have hi2 : i < rest.length + 2 := by
      simp only [modifyAt_length, fixUpto_length, hXlen] at hi
      exact hi
    rw [fixAt_getD _ _ _ (by rw [fixUpto_length, hXlen]; omega)]
    rcases eq_or_ne i 0 with h0 | h0
    · subst h0
      rw [modifyAt_getD_eq _ _ _ (by rw [fixUpto_length, hXlen]; omega)]
      rw [fixUpto_drop, gapAt_fixUpto, hdrop1,
        gapAt_append_pad _ hNC, gapAt_cons, if_neg hnl, htklen]
      have hsp0 : ((fixUpto L (rawIns (c :: rest) q new)).getD 0 dflt).span (L + 1)
          = c.span (L + 1) := by
        rw [fixUpto_getD _ _ _ (by omega), rawIns_getD_lt hq1' (by omega),
          listGetD_cons_zero]
        exact setSpansUpto_span_high (by omega) _ _
      rw [hsp0, hspan_head, hgsplit]
      congr 1
    · rcases eq_or_ne i (q + 1) with hq2 | hq2
      · subst hq2
        rw [modifyAt_getD_ne _ _ _ _ (by omega)]
        rw [fixUpto_getD _ _ _ (by omega), rawIns_getD_mid hq1']
        refine (SkipNode.setSpan_of_le _ _ _ ?_).symm
        rw [setSpansUpto_len, hnew]
        simp only [List.length_replicate]
        omega
      · rw [modifyAt_getD_ne _ _ _ _ (fun hc => h0 hc.symm)]
        exact (hother i hi2 (by omega) hq2).symm

/-- A structure whose nodes all store their canonical gaps (the span invariant
at every level up to `L`) passes through the canonical rewriting unchanged. -/
theorem fixUpto_eq_self {L : Nat} (s : List (SkipNode V))
    (hs : ∀ M, M ≤ L → spansOk M s = true)
    (hlen : ∀ nd ∈ s, lenOk nd = true) :
    fixUpto L s = s := by
  have h := fixUpto_append_of_fixed (L := L) s []
    (fun A1 a A2 hA => by
      rw [List.append_nil]
      have hmem : a ∈ s := by
        rw [hA]
        simp
      have hlenOk : a.links_len.length = a.level + 1 := by
        have := hlen a hmem
        simpa [lenOk] using this
      refine setSpansUpto_eq_self hlenOk L A2 ?_
      intro M hM hMa
      exact spansOk_span_eq (hs M hM) hA (Or.inr hMa))
  simpa using h

/-- Crossing a link the search takes is transparent to the canonical-form
description of `_insert`: given the characterization at the link's target,
the same characterization holds one node earlier. -/
theorem insertRec_step {new c y : SkipNode V}
    {rest ys : List (SkipNode V)} {L b : Nat}
    (hs : ∀ M, M ≤ L → spansOk M (c :: rest) = true)
    (hlen : ∀ nd ∈ c :: rest, lenOk nd = true)
    (h : findNext L rest = some (y :: ys)) (hle : c.span L ≤ b)
    (hIH : insertRec new L (y :: ys) (b - c.span L) =
      (fixUpto L (rawIns (y :: ys) (min (b - c.span L) ys.length) new),
        min (b - c.span L) ys.length + 1,
        min (b - c.span L) ys.length + 1)) :
    insertRec new L (c :: rest) b =
      (fixUpto L (rawIns (c :: rest) (min b rest.length) new),
        min b rest.length + 1, min b rest.length + 1) := by
  obtain ⟨P, y2, ys2, hxs, ht, hP, hy⟩ := findNext_some_decomp h
  injection ht with h1 h2
  subst h1
  subst h2
  set q' := min (b - c.span L) ys.length with hq'def
  have hq'le : q' ≤ ys.length := by omega
  have hw : c.span L = P.length + 1 := by
    have h1 : c.span L = gapAt L rest := spansOk_head (hs L (Nat.le_refl _))
    rw [h1, hxs, gapAt_append_pad _ hP, gapAt_cons, if_pos hy]
  have hrlen : rest.length = P.length + 1 + ys.length := by
    rw [hxs]
    simp only [List.length_append, List.length_cons]
    omega
  have hq : min b rest.length = c.span L + q' := by omega
  have hpre : (c :: rest).take ((c :: rest).length - (y :: ys).length)
      = c :: P := by
    rw [hxs]
    have hL : (c :: (P ++ y :: ys)).length - (y :: ys : List (SkipNode V)).length
        = P.length + 1 := by
      simp only [List.length_cons, List.length_append]
      omega
    rw [hL, List.take_succ_cons]
    have := listTake_append P (y :: ys) 0
    simpa using this
  have hsplit : rawIns (c :: rest) (min b rest.length) new
      = (c :: P) ++ rawIns (y :: ys) q' new := by
    rw [rawIns, rawIns, hq, hxs,
      show c :: (P ++ y :: ys) = (c :: P) ++ (y :: ys) from by simp,
      show c.span L + q' + 1 = (c :: P).length + (q' + 1) from by simp [hw]; omega,
      listTake_append, listDrop_append]
    simp [List.append_assoc]
  have hTshape : rawIns (y :: ys) q' new
      = y :: (ys.take q' ++ new :: ys.drop q') := rawIns_cons hq'le
  have hfix : fixUpto L ((c :: P) ++ rawIns (y :: ys) q' new)
      = (c :: P) ++ fixUpto L (rawIns (y :: ys) q' new) := by
    refine fixUpto_append_of_fixed (c :: P) _ ?_
    intro A1 a A2 hA
    have hdec : c :: rest = A1 ++ a :: (A2 ++ y :: ys) := by
      rw [hxs, show c :: (P ++ y :: ys) = (c :: P) ++ (y :: ys) from by simp, hA]
      simp
    have hmem : a ∈ c :: rest := by
      rw [hdec]
      simp
    have hlenOk : a.links_len.length = a.level + 1 := by
      have := hlen a hmem
      simpa [lenOk] using this
    refine setSpansUpto_eq_self hlenOk L _ ?_
    intro M hM hMa
    have h1 : a.span M = gapAt M (A2 ++ y :: ys) :=
      spansOk_span_eq (hs M hM) hdec (Or.inr hMa)
    rw [h1, hTshape]
    exact gapAt_stable (Nat.le_trans hM hy) A2 ys _
  rw [insertRec_peel h hle, hIH, hpre]
  simp only [Prod.mk.injEq]
  refine ⟨?_, ?_, by omega⟩
  · rw [hsplit, hfix]
  · simp only [List.length_cons, hrlen]
    omega

/-- Canonical description of `_insert` at every level: under the span
invariant at levels `≤ L`, the search lands right after position
`min b (s.length - 1)`, the new node is spliced there, every span at levels
`0 .. L` is rewritten to its canonical gap, and the returned reference and
distance are both that position plus one. -/
theorem insertRec_go {new : SkipNode V}
    (hnew : new.links_len = List.replicate (new.level + 1) 0) :
    ∀ (L n : Nat) (c : SkipNode V) (rest : List (SkipNode V)) (b : Nat),
      rest.length ≤ n →
      (∀ M, M ≤ L → spansOk M (c :: rest) = true) →
      (∀ nd ∈ c :: rest, lenOk nd = true) →
      insertRec new L (c :: rest) b =
        (fixUpto L (rawIns (c :: rest) (min b rest.length) new),
          min b rest.length + 1, min b rest.length + 1) := by
  intro L
  induction L with
  | zero =>
    intro n
    induction n with
    | zero =>
      intro c rest b hn hs hlen
      have hr : rest = [] := List.eq_nil_of_length_eq_zero (Nat.le_zero.mp hn)
      subst hr
      simp only [insertRec, advance_atmost, advance_while, advW]
      have hnewfix : SkipNode.setSpan new 0 0 = new := by
        have h0 : new.span 0 = 0 := by
          rw [SkipNode.span, hnew]
          exact SkipNode.listGetD_replicate_zero _ _
        have h1 := SkipNode.setSpan_self new 0 (by rw [hnew]; simp)
        rwa [h0] at h1
      simp [rawIns, fixUpto, setSpansUpto, gapAt, findNext, hnewfix]
    | succ n ihn =>
      intro c rest b hn hs hlen
      cases rest with
      | nil =>
        exact ihn c [] b (by simp) hs hlen
      | cons x xs =>
        have hfind : findNext 0 (x :: xs) = some (x :: xs) :=
          findNext_cons_of_le xs (Nat.zero_le _)
        have hspan1 : c.span 0 = 1 := by
          have h1 : c.span 0 = gapAt 0 (x :: xs) := spansOk_head (hs 0 (Nat.le_refl _))
          rw [h1, gapAt_cons, if_pos (Nat.zero_le _)]
        have hsx : ∀ M, M ≤ 0 → spansOk M (x :: xs) = true := by
          intro M hM
          have hM0 : M = 0 := Nat.le_zero.mp hM
          subst hM0
          exact spansOk_decomp 1 (A := [c]) (by simp) (hs 0 (Nat.le_refl _))
            (Or.inr (Nat.zero_le _))
        have hlx : ∀ nd ∈ x :: xs, lenOk nd = true := by
          intro nd hnd
          exact hlen nd (by simp [hnd])
        by_cases hle : c.span 0 ≤ b
        · refine insertRec_step hs hlen hfind hle ?_
          exact ihn x xs (b - c.span 0) (by simpa using hn) hsx hlx
        · have hb : b = 0 := by omega
          subst hb
          have hq : min 0 (x :: xs : List (SkipNode V)).length = 0 := by simp
          rw [hq]
          simp only [insertRec]
          rw [advance_atmost_step_gt hfind (by omega)]
          simp only [List.length_cons, Nat.sub_self, List.take_zero, List.nil_append,
            List.length_nil]
          have hfixtail : fixUpto 0 (x :: xs) = x :: xs :=
            fixUpto_eq_self (x :: xs) hsx hlx
          have hnewspan : SkipNode.setSpan new 0 (gapAt 0 (x :: xs)) =
              SkipNode.setSpan new 0 1 := by
            rw [gapAt_cons, if_pos (Nat.zero_le _)]
          have hraw : rawIns (c :: x :: xs) 0 new = c :: new :: x :: xs := by
            rw [rawIns, List.take_succ_cons, List.take_zero, List.drop_succ_cons,
              List.drop_zero]
            rfl
          have h1 : setSpansUpto 0 c (new :: x :: xs) = c.setSpan 0 1 := by
            rw [setSpansUpto, gapAt_cons, if_pos (Nat.zero_le _)]
          have h2 : fixUpto 0 (new :: x :: xs) = new.setSpan 0 1 :: (x :: xs) := by
            rw [fixUpto_cons, hfixtail, setSpansUpto, gapAt_cons,
              if_pos (Nat.zero_le _)]
          rw [hraw, fixUpto_cons, h1, h2]
  | succ L ihL =>
    intro n
    induction n with
    | zero =>
      intro c rest b hn hs hlen
      have hr : rest = [] := List.eq_nil_of_length_eq_zero (Nat.le_zero.mp hn)
      subst hr
      refine insertRec_succ_nostep hs hlen hnew (Or.inl (by simp)) ?_
      exact ihL 0 c [] b (by simp) (fun M hM => hs M (Nat.le_succ_of_le hM)) hlen
    | succ n ihn =>
      intro c rest b hn hs hlen
      cases hf : findNext (L + 1) rest with
      | none =>
        refine insertRec_succ_nostep hs hlen hnew (Or.inl hf) ?_
        exact ihL rest.length c rest b (Nat.le_refl _)
          (fun M hM => hs M (Nat.le_succ_of_le hM)) hlen
      | some t =>
        by_cases hle : c.span (L + 1) ≤ b
        · obtain ⟨P, y, ys, hxs, ht, hP, hy⟩ := findNext_some_decomp hf
          subst ht
          have hsy : ∀ M, M ≤ L + 1 → spansOk M (y :: ys) = true := by
            intro M hM
            refine spansOk_decomp (c :: P).length (A := c :: P) (Nat.le_refl _)
              ?_ (Or.inr (Nat.le_trans hM hy))
            rw [show (c :: P) ++ y :: ys = c :: (P ++ y :: ys) from by simp, ← hxs]
            exact hs M hM
          have hly : ∀ nd ∈ y :: ys, lenOk nd = true := by
            intro nd hnd
            refine hlen nd ?_
            rw [hxs] at *
            rcases List.mem_cons.mp hnd with h1 | h2
            · subst h1
              simp
            · simp [h2]
          refine insertRec_step hs hlen hf hle ?_
          refine ihn y ys (b - c.span (L + 1)) ?_ hsy hly
          have := congrArg List.length hxs
          simp only [List.length_append, List.length_cons] at this hn
          omega
        · exact insertRec_succ_nostep hs hlen hnew
            (Or.inr ⟨t, hf, by omega⟩) (ihL rest.length c rest b
              (Nat.le_refl _) (fun M hM => hs M (Nat.le_succ_of_le hM)) hlen)

/-! ## The remove side -/

theorem rawRem_cons (c : SkipNode V) (rest : List (SkipNode V)) (b : Nat) :
    rawRem (c :: rest) (b + 1) = c :: rawRem rest b := by
  rw [rawRem, rawRem, List.take_succ_cons, List.drop_succ_cons, List.cons_append]

theorem rawRem_length (s : List (SkipNode V)) (j : Nat) (hj : j < s.length) :
    (rawRem s j).length = s.length - 1 := by
  rw [rawRem]
  simp only [List.length_append, List.length_take, List.length_drop]
  omega

theorem rawRem_getD_lt {s : List (SkipNode V)} {j i : Nat} (hj : j ≤ s.length)
    (hi : i < j) : (rawRem s j).getD i dflt = s.getD i dflt := by
  rw [rawRem, listGetD_append_left _ _ _ _ (by rw [take_len_of_le _ _ hj]; omega),
    listGetD_take _ _ _ _ hi]

theorem rawRem_getD_ge {s : List (SkipNode V)} {j i : Nat} (hj : j ≤ s.length)
    (hi : j ≤ i) : (rawRem s j).getD i dflt = s.getD (i + 1) dflt := by
  have h := listGetD_append_right dflt (s.take j) (s.drop (j + 1)) (i - j)
  rw [take_len_of_le _ _ hj, show j + (i - j) = i from by omega] at h
  rw [rawRem, h, listGetD_drop]
  congr 1
  omega

theorem rawRem_drop_ge {s : List (SkipNode V)} {j i : Nat} (hj : j ≤ s.length)
    (hi : j ≤ i) : (rawRem s j).drop i = s.drop (i + 1) := by
  have h := listDrop_append (s.take j) (s.drop (j + 1)) (i - j)
  rw [take_len_of_le _ _ hj, show j + (i - j) = i from by omega] at h
  rw [rawRem, h, List.drop_drop]
  congr 1
  omega

/-- Crossing the first link the search takes at level `L` commutes with the
whole of `_remove`: the cells up to that link are untouched, and the distance
grows by the crossed span. -/
theorem removeRec_peel {L : Nat} {c : SkipNode V}
    {rest t : List (SkipNode V)} {b : Nat}
    (h : findNext L rest = some t) (hle : c.span L ≤ b) :
    removeRec L (c :: rest) b =
      resShift ((c :: rest).take ((c :: rest).length - t.length)) (c.span L)
        (removeRec L t (b - c.span L)) := by
  obtain ⟨P, y, ys, hxs, ht, hP, hy⟩ := findNext_some_decomp h
  subst ht
  subst hxs
  obtain ⟨k, hk, hA⟩ :=
    advance_atmost_suffix (L := L) ys.length y ys (b - c.span L) (Nat.le_refl _)
  cases hA2 : (advance_atmost L (y :: ys) (b - c.span L)).1 with
  | nil =>
    rw [hA2] at hA
    have hlen := congrArg List.length hA
    simp at hlen
    omega
  | cons prev tail =>
    have hklen : (prev :: tail).length = (ys.length - k) + 1 := by
      rw [← hA2, hA]
      simp
      omega
    have hslen : (c :: (P ++ y :: ys)).length = P.length + ys.length + 2 := by
      simp only [List.length_cons, List.length_append]
      omega
    have htlen : (y :: ys : List (SkipNode V)).length = ys.length + 1 := by simp
    have hnle : (prev :: tail).length ≤ (y :: ys : List (SkipNode V)).length := by
      rw [hklen, htlen]
      omega
    cases L with
    | zero =>
      simp only [removeRec]
      rw [advance_atmost_step_le h hle, hA2]
      cases tail with
      | nil => rfl
      | cons rem ts =>
        cases ts with
        | nil =>
          simp only [resShift, RemoveRes.ok.injEq]
          refine ⟨?_, by simp, by omega⟩
          exact take_suffix_glue c P (y :: ys) _ 2 (by
            simpa [htlen] using hnle)
        | cons t2 ts2 =>
          simp only [resShift, RemoveRes.ok.injEq]
          refine ⟨?_, by simp, by omega⟩
          exact take_suffix_glue c P (y :: ys) _ (ts2.length + 1 + 1 + 1) (by
            simpa [htlen] using hnle)
    | succ L1 =>
      simp only [removeRec]
      rw [advance_atmost_step_le h hle, hA2]
      rw [show b - (c.span (L1 + 1) + (advance_atmost (L1 + 1) (y :: ys)
            (b - c.span (L1 + 1))).2)
          = b - c.span (L1 + 1) - (advance_atmost (L1 + 1) (y :: ys)
            (b - c.span (L1 + 1))).2 from (Nat.sub_sub b _ _).symm]
      cases htail : tail.isEmpty with
      | true => simp only [htail, if_true, resShift]
      | false =>
        simp only [htail, Bool.false_eq_true, if_false]
        cases hrr : removeRec L1 (prev :: tail)
            (b - c.span (L1 + 1) -
              (advance_atmost (L1 + 1) (y :: ys) (b - c.span (L1 + 1))).2) with
        | notFound => simp only [hrr, resShift]
        | panicked => simp only [hrr, resShift]
        | ok s2 rem d0 =>
          simp only [hrr]
          by_cases hlev : L1 + 1 ≤ rem.level
          · by_cases hassert : hdSpan (L1 + 1) s2 = d0
            · rw [if_pos hlev, if_pos hlev, if_pos hassert, if_pos hassert]
              simp only [resShift, RemoveRes.ok.injEq]
              refine ⟨?_, by simp, by omega⟩
              exact take_suffix_glue c P (y :: ys) _ (prev :: tail).length hnle
            · rw [if_pos hlev, if_pos hlev, if_neg hassert, if_neg hassert]
              simp only [resShift]
          · rw [if_neg hlev, if_neg hlev]
            simp only [resShift, RemoveRes.ok.injEq]
            refine ⟨?_, by simp, by omega⟩
            exact take_suffix_glue c P (y :: ys) _ (prev :: tail).length hnle

/-- A node of height `≥ M` at index `b` bounds the level-`M` gap. -/
theorem gapAt_le_of_getD {M b : Nat} {rest : List (SkipNode V)}
    (hb : b < rest.length) (hlev : M ≤ (rest.getD b dflt).level) :
    gapAt M rest ≤ b + 1 := by
  have hdec := list_decomp_at dflt rest b hb
  obtain ⟨A2, hfind, hA2⟩ :=
    findNext_chain_suffix hlev (rest.take b) (rest.drop (b + 1))
  rw [← hdec] at hfind
  rw [gapAt, hfind]
  have h1 : (rest.take b).length = b := take_len_of_le _ _ (by omega)
  have h2 : (rest.drop (b + 1)).length = rest.length - (b + 1) := by simp
  simp only [List.length_append, List.length_cons, h2]
  omega

/-- The frame of `_remove` at level `L+1` when the search cannot move: the
defensive assertion holds, and the level-`(L+1)` span updates are exactly the
canonical fixing of level `L+1` on the shortened list. -/
theorem removeRec_succ_nostep {c : SkipNode V} {rest : List (SkipNode V)}
    {L b : Nat}
    (hspans : ∀ M, M ≤ L + 1 → spansOk M (c :: rest) = true)
    (hlen : ∀ nd ∈ c :: rest, lenOk nd = true)
    (hcase : findNext (L + 1) rest = none ∨
      (∃ t, findNext (L + 1) rest = some t ∧ b < c.span (L + 1)))
    (hIH : removeRec L (c :: rest) b =
      if b < rest.length then
        RemoveRes.ok (fixUpto L (rawRem (c :: rest) (b + 1)))
          ((rest.getD b dflt).setSpan 0 0) (b + 1)
      else RemoveRes.notFound) :
    removeRec (L + 1) (c :: rest) b =
      if b < rest.length then
        RemoveRes.ok (fixUpto (L + 1) (rawRem (c :: rest) (b + 1)))
          ((rest.getD b dflt).setSpan 0 0) (b + 1)
      else RemoveRes.notFound := by
  have hadv : advance_atmost (L + 1) (c :: rest) b = (c :: rest, 0) := by
    rcases hcase with hnone | ⟨t, hsome, hgt⟩
    · exact advance_atmost_none hnone
    · exact advance_atmost_step_gt hsome hgt
  simp only [removeRec]
  rw [hadv]
  simp only [List.length_cons, Nat.sub_self, List.take_zero, List.nil_append,
    Nat.sub_zero, List.length_nil, Nat.zero_add, Nat.add_zero]
  cases rest with
  | nil =>
    simp only [List.isEmpty_nil, if_true]
    rw [if_neg (by simp)]
  | cons x xs =>
    simp only [List.isEmpty_cons, Bool.false_eq_true, if_false]
    rcases Nat.lt_or_ge b (x :: xs).length with hblt | hbge
    · have hblen : b ≤ (x :: xs).length := Nat.le_of_lt hblt
      have hXc : rawRem (c :: x :: xs) (b + 1) = c :: rawRem (x :: xs) b :=
        rawRem_cons c (x :: xs) b
      set R := rawRem (x :: xs) b with hRdef
      have hRlen : R.length = (x :: xs).length - 1 := rawRem_length _ _ hblt
      have hRlen2 : R.length = xs.length := by
        rw [hRlen]
        simp
      have hlenR : ∀ nd ∈ c :: R, lenOk nd = true := by
        intro nd hnd
        rcases List.mem_cons.mp hnd with h1 | h2
        · exact hlen nd (by simp [h1])
        · rw [hRdef, rawRem] at h2
          rcases List.mem_append.mp h2 with h3 | h4
          · exact hlen nd (by simp [List.mem_of_mem_take h3])
          · exact hlen nd (by simp [List.mem_of_mem_drop h4])
      have hspan_head : c.span (L + 1) = gapAt (L + 1) (x :: xs) :=
        spansOk_head (hspans (L + 1) (Nat.le_refl _))
      have hlow : ∀ j, j < b → ((x :: xs).getD j dflt).level < L + 1 := by
        rcases hcase with hnone | ⟨t, hsome, hgt⟩
        · intro j hj
          exact findNext_none_iff.mp hnone _
            (listGetD_mem _ _ _ (by omega))
        · obtain ⟨P, y, ys, hxs, ht, hP, hy⟩ := findNext_some_decomp hsome
          have hgap : gapAt (L + 1) (x :: xs) = P.length + 1 := by
            rw [hxs, gapAt_append_pad _ hP, gapAt_cons, if_pos hy]
          intro j hj
          have hjP : j < P.length := by omega
          have hgd : (x :: xs).getD j dflt = P.getD j dflt := by
            rw [hxs, listGetD_append_left _ _ _ _ hjP]
          rw [hgd]
          exact hP _ (listGetD_mem _ _ _ hjP)
      have hother : ∀ i, i < (x :: xs).length → 1 ≤ i →
          ((fixUpto L (c :: R)).getD i dflt).setSpan (L + 1)
              (gapAt (L + 1) ((fixUpto L (c :: R)).drop (i + 1)))
            = (fixUpto L (c :: R)).getD i dflt := by
        intro i hi h1
        obtain ⟨j, rfl⟩ : ∃ j, i = j + 1 := ⟨i - 1, by omega⟩
        have hiX : j + 1 < (c :: R).length := by
          simp only [List.length_cons, hRlen2]
          simp only [List.length_cons] at hi
          omega
        rw [fixUpto_getD _ _ _ hiX, fixUpto_drop, gapAt_fixUpto,
          listGetD_cons_succ, List.drop_succ_cons]
        rcases Nat.lt_or_ge j b with hjb | hjb
        · have hXj : R.getD j dflt = (x :: xs).getD j dflt :=
            rawRem_getD_lt hblen hjb
          have hmem : (x :: xs).getD j dflt ∈ x :: xs :=
            listGetD_mem _ _ _ (by omega)
          have hlenOk : ((x :: xs).getD j dflt).links_len.length
              = ((x :: xs).getD j dflt).level + 1 := by
            have := hlen _ (List.mem_cons_of_mem c hmem)
            simpa [lenOk] using this
          rw [hXj]
          refine SkipNode.setSpan_of_le _ _ _ ?_
          rw [setSpansUpto_len, hlenOk]
          have := hlow j hjb
          omega
        · have hXj : R.getD j dflt = (x :: xs).getD (j + 1) dflt :=
            rawRem_getD_ge hblen hjb
          have hXd : R.drop (j + 1) = (x :: xs).drop (j + 2) :=
            rawRem_drop_ge hblen (by omega)
          have hmem : (x :: xs).getD (j + 1) dflt ∈ x :: xs :=
            listGetD_mem _ _ _ hi
          have hlenOk : ((x :: xs).getD (j + 1) dflt).links_len.length
              = ((x :: xs).getD (j + 1) dflt).level + 1 := by
            have := hlen _ (List.mem_cons_of_mem c hmem)
            simpa [lenOk] using this
          rw [hXj, hXd]
          rcases Nat.lt_or_ge ((x :: xs).getD (j + 1) dflt).level (L + 1) with hlv | hlv
          · refine SkipNode.setSpan_of_le _ _ _ ?_
            rw [setSpansUpto_len, hlenOk]
            omega
          · have hj2 : j + 2 < (c :: x :: xs).length := by
              simp only [List.length_cons, hRlen] at hiX
              simp only [List.length_cons]
              omega
            have hdec := list_decomp_at dflt (c :: x :: xs) (j + 2) hj2
            have hgd : (c :: x :: xs).getD (j + 2) dflt
                = (x :: xs).getD (j + 1) dflt := rfl
            have hdr : (c :: x :: xs).drop (j + 3) = (x :: xs).drop (j + 2) := rfl
            rw [hgd, hdr] at hdec
            have hsp : ((x :: xs).getD (j + 1) dflt).span (L + 1)
                = gapAt (L + 1) ((x :: xs).drop (j + 2)) :=
              spansOk_span_eq (hspans (L + 1) (Nat.le_refl _)) hdec (Or.inr hlv)
            have hval : gapAt (L + 1) ((x :: xs).drop (j + 2))
                = (setSpansUpto L ((x :: xs).getD (j + 1) dflt)
                    ((x :: xs).drop (j + 2))).span (L + 1) := by
              rw [setSpansUpto_span_high (by omega)]
              exact hsp.symm
            rw [hval]
            exact SkipNode.setSpan_self _ _ (by rw [setSpansUpto_len, hlenOk]; omega)
      have hRsub : ∀ nd ∈ R, nd ∈ x :: xs := by
        intro nd hnd
        rw [hRdef, rawRem] at hnd
        rcases List.mem_append.mp hnd with h3 | h4
        · exact List.mem_of_mem_take h3
        · exact List.mem_of_mem_drop h4
      have hIH2 : removeRec L (c :: x :: xs) b =
          RemoveRes.ok (fixUpto L (c :: R))
            (((x :: xs).getD b dflt).setSpan 0 0) (b + 1) := by
        rw [hIH, if_pos hblt, hXc]
      rw [hIH2, if_pos hblt, hXc]
      show (if L + 1 ≤ (((x :: xs).getD b dflt).setSpan 0 0).level then
          if hdSpan (L + 1) (fixUpto L (c :: R)) = b + 1 then
            RemoveRes.ok
              (modifyAt (fun nd => nd.setSpan (L + 1)
                (b + 1 + (((x :: xs).getD b dflt).setSpan 0 0).span (L + 1) - 1)) 0
                (fixUpto L (c :: R)))
              (((x :: xs).getD b dflt).setSpan 0 0) (b + 1)
          else RemoveRes.panicked
        else
          RemoveRes.ok
            (modifyAt (fun nd => nd.setSpan (L + 1) (nd.span (L + 1) - 1)) 0
              (fixUpto L (c :: R)))
            (((x :: xs).getD b dflt).setSpan 0 0) (b + 1))
        = RemoveRes.ok (fixUpto (L + 1) (c :: R))
            (((x :: xs).getD b dflt).setSpan 0 0) (b + 1)
      have hhd0 : (fixUpto L (c :: R)).getD 0 dflt = setSpansUpto L c R := by
        rw [fixUpto_cons, listGetD_cons_zero]
      have hcRlen : (c :: R).length = (x :: xs).length := by
        simp only [List.length_cons, hRlen, List.length_cons]
        omega
      by_cases hlev : L + 1 ≤ (((x :: xs).getD b dflt).setSpan 0 0).level
      · have hlev' : L + 1 ≤ ((x :: xs).getD b dflt).level := by
          rwa [SkipNode.setSpan_level] at hlev
        have hub : gapAt (L + 1) (x :: xs) ≤ b + 1 := gapAt_le_of_getD hblt hlev'
        have hcgt : b < c.span (L + 1) := by
          rcases hcase with hnone | ⟨t, hsome, hgt⟩
          · exact absurd (findNext_none_iff.mp hnone _ (listGetD_mem dflt _ _ hblt))
              (by omega)
          · exact hgt
        have hgap : c.span (L + 1) = b + 1 := by
          rw [hspan_head]
          rw [hspan_head] at hcgt
          omega
        have hhd : hdSpan (L + 1) (fixUpto L (c :: R)) = b + 1 := by
          rw [fixUpto_cons, hdSpan_cons, setSpansUpto_span_high (by omega), hgap]
        obtain ⟨t, hsome⟩ : ∃ t, findNext (L + 1) (x :: xs) = some t := by
          rcases hcase with hnone | ⟨t, hsome, _⟩
          · exact absurd (findNext_none_iff.mp hnone _ (listGetD_mem dflt _ _ hblt))
              (by omega)
          · exact ⟨t, hsome⟩
        obtain ⟨P, y, ys, hxs, ht, hP, hy⟩ := findNext_some_decomp hsome
        have hgapP : gapAt (L + 1) (x :: xs) = P.length + 1 := by
          rw [hxs, gapAt_append_pad _ hP, gapAt_cons, if_pos hy]
        have hPb : P.length = b := by
          rw [hspan_head, hgapP] at hgap
          omega
        have hgdy : (x :: xs).getD b dflt = y := by
          rw [hxs, ← hPb]
          have h := listGetD_append_right dflt P (y :: ys) 0
          rw [Nat.add_zero] at h
          rw [h, listGetD_cons_zero]
        have hRsplit : R = P ++ ys := by
          rw [hRdef, rawRem, hxs, ← hPb, List.take_left]
          congr 1
          have h := listDrop_append P (y :: ys) 1
          simpa using h
        have hremspan : (((x :: xs).getD b dflt).setSpan 0 0).span (L + 1)
            = gapAt (L + 1) ys := by
          rw [SkipNode.span_setSpan_ne _ _ _ _ (by omega), hgdy]
          have hdec : c :: x :: xs = (c :: P) ++ y :: ys := by
            rw [hxs]
            simp
          exact spansOk_span_eq (hspans (L + 1) (Nat.le_refl _)) hdec (Or.inr hy)
        rw [if_pos hlev, if_pos hhd]
        refine congrArg (fun z => RemoveRes.ok z
          (((x :: xs).getD b dflt).setSpan 0 0) (b + 1)) ?_
        rw [fixUpto_succ]
        refine listExt dflt _ _ (by simp) ?_
        intro i hi
        have hi2 : i < (x :: xs).length := by
          simp only [modifyAt_length, fixUpto_length, hcRlen] at hi
          exact hi
        rw [fixAt_getD _ _ _ (by rw [fixUpto_length, hcRlen]; omega)]
        rcases eq_or_ne i 0 with h0 | h0
        · subst h0
          rw [modifyAt_getD_eq _ _ _ (by rw [fixUpto_length, hcRlen]; omega), hhd0,
            hremspan, fixUpto_drop, gapAt_fixUpto]
          have hd1 : (c :: R).drop 1 = R := rfl
          rw [hd1]
          congr 1
          rw [hRsplit, gapAt_append_pad _ hP, hPb]
          omega
        · rw [modifyAt_getD_ne _ _ _ _ (fun hc => h0 hc.symm)]
          exact (hother i hi2 (by omega)).symm
      · have hgapR : gapAt (L + 1) R = gapAt (L + 1) (x :: xs) - 1 := by
          have hlev' : ((x :: xs).getD b dflt).level < L + 1 := by
            simp only [SkipNode.setSpan_level] at hlev
            omega
          rcases hcase with hnone | ⟨t, hsome, hgt⟩
          · have hnoneR : findNext (L + 1) R = none :=
              findNext_none_iff.mpr
                (fun nd hnd => findNext_none_iff.mp hnone nd (hRsub nd hnd))
            rw [gapAt, hnoneR, gapAt, hnone, hRlen]
          · obtain ⟨P, y, ys, hxs, ht, hP, hy⟩ := findNext_some_decomp hsome
            have hgapP : gapAt (L + 1) (x :: xs) = P.length + 1 := by
              rw [hxs, gapAt_append_pad _ hP, gapAt_cons, if_pos hy]
            have hbP : b < P.length := by
              rcases Nat.lt_or_ge b P.length with h | h
              · exact h
              · exfalso
                have hbeq : P.length = b := by
                  rw [hspan_head, hgapP] at hgt
                  omega
                have hgdy : (x :: xs).getD b dflt = y := by
                  rw [hxs, ← hbeq]
                  have h2 := listGetD_append_right dflt P (y :: ys) 0
                  rw [Nat.add_zero] at h2
                  rw [h2, listGetD_cons_zero]
                rw [hgdy] at hlev'
                omega
            have hRsplit2 : R = P.take b ++ (P.drop (b + 1) ++ y :: ys) := by
              rw [hRdef, rawRem, hxs,
                List.take_append_of_le_length (by omega),
                List.drop_append_of_le_length (by omega)]
            rw [hRsplit2,
              gapAt_append_pad _ (fun nd hnd => hP nd (List.mem_of_mem_take hnd)),
              gapAt_append_pad _ (fun nd hnd => hP nd (List.mem_of_mem_drop hnd)),
              gapAt_cons, if_pos hy, hgapP,
              take_len_of_le _ _ (by omega)]
            simp only [List.length_drop]
            omega
        rw [if_neg hlev]
        refine congrArg (fun z => RemoveRes.ok z
          (((x :: xs).getD b dflt).setSpan 0 0) (b + 1)) ?_
        rw [fixUpto_succ]
        refine listExt dflt _ _ (by simp) ?_
        intro i hi
        have hi2 : i < (x :: xs).length := by
          simp only [modifyAt_length, fixUpto_length, hcRlen] at hi
          exact hi
        rw [fixAt_getD _ _ _ (by rw [fixUpto_length, hcRlen]; omega)]
        rcases eq_or_ne i 0 with h0 | h0
        · subst h0
          rw [modifyAt_getD_eq _ _ _ (by rw [fixUpto_length, hcRlen]; omega), hhd0,
            fixUpto_drop, gapAt_fixUpto]
          have hd1 : (c :: R).drop 1 = R := rfl
          rw [hd1]
          congr 1
          rw [setSpansUpto_span_high (by omega), hspan_head, hgapR]
        · rw [modifyAt_getD_ne _ _ _ _ (fun hc => h0 hc.symm)]
          exact (hother i hi2 (by omega)).symm
    · rw [hIH, if_neg (by omega), if_neg (by omega)]

/-- Crossing a link the search takes is transparent to the canonical-form
description of `_remove`. -/
theorem removeRec_step {c y : SkipNode V} {rest ys : List (SkipNode V)} {L b : Nat}
    (hs : ∀ M, M ≤ L → spansOk M (c :: rest) = true)
    (hlen : ∀ nd ∈ c :: rest, lenOk nd = true)
    (h : findNext L rest = some (y :: ys)) (hle : c.span L ≤ b)
    (hIH : removeRec L (y :: ys) (b - c.span L) =
      if b - c.span L < ys.length then
        RemoveRes.ok (fixUpto L (rawRem (y :: ys) (b - c.span L + 1)))
          ((ys.getD (b - c.span L) dflt).setSpan 0 0) (b - c.span L + 1)
      else RemoveRes.notFound) :
    removeRec L (c :: rest) b =
      if b < rest.length then
        RemoveRes.ok (fixUpto L (rawRem (c :: rest) (b + 1)))
          ((rest.getD b dflt).setSpan 0 0) (b + 1)
      else RemoveRes.notFound := by
  obtain ⟨P, y2, ys2, hxs, ht, hP, hy⟩ := findNext_some_decomp h
  injection ht with h1 h2
  subst h1
  subst h2
  have hw : c.span L = P.length + 1 := by
    have h1 : c.span L = gapAt L rest := spansOk_head (hs L (Nat.le_refl _))
    rw [h1, hxs, gapAt_append_pad _ hP, gapAt_cons, if_pos hy]
  have hrlen : rest.length = P.length + 1 + ys.length := by
    rw [hxs]
    simp only [List.length_append, List.length_cons]
    omega
  have hpre : (c :: rest).take ((c :: rest).length - (y :: ys).length)
      = c :: P := by
    rw [hxs]
    have hL : (c :: (P ++ y :: ys)).length - (y :: ys : List (SkipNode V)).length
        = P.length + 1 := by
      simp only [List.length_cons, List.length_append]
      omega
    rw [hL, List.take_succ_cons]
    have := listTake_append P (y :: ys) 0
    simpa using this
  rw [removeRec_peel h hle, hIH, hpre]
  rcases Nat.lt_or_ge b rest.length with hblt | hbge
  · rw [if_pos (by omega), if_pos hblt]
    set b2 := b - c.span L with hb2def
    have hbsum : b = c.span L + b2 := by omega
    have hsplit : rawRem (c :: rest) (b + 1)
        = (c :: P) ++ rawRem (y :: ys) (b2 + 1) := by
      rw [rawRem, rawRem, hxs,
        show c :: (P ++ y :: ys) = (c :: P) ++ (y :: ys) from by simp,
        show b + 1 = (c :: P).length + (b2 + 1) from by simp [hw]; omega,
        show (c :: P).length + (b2 + 1) + 1 = (c :: P).length + (b2 + 1 + 1)
          from by omega,
        listTake_append, listDrop_append]
      simp [List.append_assoc]
    have hTshape : rawRem (y :: ys) (b2 + 1) = y :: rawRem ys b2 :=
      rawRem_cons y ys b2
    have hfix : fixUpto L ((c :: P) ++ rawRem (y :: ys) (b2 + 1))
        = (c :: P) ++ fixUpto L (rawRem (y :: ys) (b2 + 1)) := by
      refine fixUpto_append_of_fixed (c :: P) _ ?_
      intro A1 a A2 hA
      have hdec : c :: rest = A1 ++ a :: (A2 ++ y :: ys) := by
        rw [hxs, show c :: (P ++ y :: ys) = (c :: P) ++ (y :: ys) from by simp, hA]
        simp
      have hmem : a ∈ c :: rest := by
        rw [hdec]
        simp
      have hlenOk : a.links_len.length = a.level + 1 := by
        have := hlen a hmem
        simpa [lenOk] using this
      refine setSpansUpto_eq_self hlenOk L _ ?_
      intro M hM hMa
      have h1 : a.span M = gapAt M (A2 ++ y :: ys) :=
        spansOk_span_eq (hs M hM) hdec (Or.inr hMa)
      rw [h1, hTshape]
      exact gapAt_stable (Nat.le_trans hM hy) A2 ys _
    have hrem : (ys.getD b2 dflt).setSpan 0 0
        = (rest.getD b dflt).setSpan 0 0 := by
      have hg : rest.getD b dflt = ys.getD b2 dflt := by
        rw [hxs, show b = P.length + (b2 + 1) from by rw [hbsum, hw]; omega,
          listGetD_append_right, listGetD_cons_succ]
      rw [hg]
    simp only [resShift, RemoveRes.ok.injEq]
    refine ⟨?_, hrem, by omega⟩
    rw [hsplit, hfix]
  · rw [if_neg (by omega), if_neg (by omega)]
    rfl

/-- Canonical description of `_remove` at every level: under the span
invariant at levels `≤ L`, the node right after position
`min b (s.length - 1)` is detached when it exists (its level-0 span zeroed),
every span at levels `0 .. L` is rewritten to its canonical gap, the distance
is that position plus one, the defensive assertion never fires, and `None` is
returned exactly when the budget reaches past the last node. -/
theorem removeRec_go :
    ∀ (L n : Nat) (c : SkipNode V) (rest : List (SkipNode V)) (b : Nat),
      rest.length ≤ n →
      (∀ M, M ≤ L → spansOk M (c :: rest) = true) →
      (∀ nd ∈ c :: rest, lenOk nd = true) →
      removeRec L (c :: rest) b =
        if b < rest.length then
          RemoveRes.ok (fixUpto L (rawRem (c :: rest) (b + 1)))
            ((rest.getD b dflt).setSpan 0 0) (b + 1)
        else RemoveRes.notFound := by
  intro L
  induction L with
  | zero =>
    intro n
    induction n with
    | zero =>
      intro c rest b hn hs hlen
      have hr : rest = [] := List.eq_nil_of_length_eq_zero (Nat.le_zero.mp hn)
      subst hr
      rw [if_neg (by simp)]
      simp [removeRec, advance_atmost, advance_while, advW]
    | succ n ihn =>
      intro c rest b hn hs hlen
      cases rest with
      | nil =>
        exact ihn c [] b (by simp) hs hlen
      | cons x xs =>
        have hfind : findNext 0 (x :: xs) = some (x :: xs) :=
          findNext_cons_of_le xs (Nat.zero_le _)
        have hspan1 : c.span 0 = 1 := by
          have h1 : c.span 0 = gapAt 0 (x :: xs) := spansOk_head (hs 0 (Nat.le_refl _))
          rw [h1, gapAt_cons, if_pos (Nat.zero_le _)]
        have hsx : ∀ M, M ≤ 0 → spansOk M (x :: xs) = true := by
          intro M hM
          have hM0 : M = 0 := Nat.le_zero.mp hM
          subst hM0
          exact spansOk_decomp 1 (A := [c]) (by simp) (hs 0 (Nat.le_refl _))
            (Or.inr (Nat.zero_le _))
        have hlx : ∀ nd ∈ x :: xs, lenOk nd = true := by
          intro nd hnd
          exact hlen nd (by simp [hnd])
        by_cases hle : c.span 0 ≤ b
        · refine removeRec_step hs hlen hfind hle ?_
          exact ihn x xs (b - c.span 0) (by simpa using hn) hsx hlx
        · have hb : b = 0 := by omega
          subst hb
          rw [if_pos (by simp)]
          simp only [removeRec]
          rw [advance_atmost_step_gt hfind (by omega)]
          simp only [List.length_cons, Nat.sub_self, List.take_zero, List.nil_append,
            List.length_nil]
          have hraw : rawRem (c :: x :: xs) 1 = c :: xs := by
            rw [rawRem]
            rfl
          rw [hraw]
          cases xs with
          | nil =>
            have hx0 : x.span 0 = 0 := by
              have h1 : spansOk 0 (x :: ([] : List (SkipNode V))) = true :=
                spansOk_decomp 1 (A := [c]) (by simp) (hs 0 (Nat.le_refl _))
                  (Or.inr (Nat.zero_le _))
              have h2 := spansOk_head h1
              simpa using h2
            have hxfix : x.setSpan 0 0 = x := by
              have hlx2 : x.links_len.length = x.level + 1 := by
                have := hlen x (by simp)
                simpa [lenOk] using this
              have h3 := SkipNode.setSpan_self x 0 (by omega)
              rwa [hx0] at h3
            rw [show ((x :: [] : List (SkipNode V)).getD 0 dflt) = x from rfl, hxfix]
            rw [fixUpto_cons, fixUpto_nil, setSpansUpto]
            rfl
          | cons t2 ts2 =>
            have hfix2 : fixUpto 0 (t2 :: ts2) = t2 :: ts2 := by
              refine fixUpto_eq_self _ ?_ ?_
              · intro M hM
                have hM0 : M = 0 := Nat.le_zero.mp hM
                subst hM0
                refine spansOk_decomp 2 (A := [c, x]) (by simp)
                  ?_ (Or.inr (Nat.zero_le _))
                exact hs 0 (Nat.le_refl _)
              · intro nd hnd
                exact hlen nd (by simp [hnd])
            rw [fixUpto_cons, hfix2, setSpansUpto, gapAt_cons, if_pos (Nat.zero_le _)]
            rfl
  | succ L ihL =>
    intro n
    induction n with
    | zero =>
      intro c rest b hn hs hlen
      have hr : rest = [] := List.eq_nil_of_length_eq_zero (Nat.le_zero.mp hn)
      subst hr
      refine removeRec_succ_nostep hs hlen (Or.inl (by simp)) ?_
      exact ihL 0 c [] b (by simp) (fun M hM => hs M (Nat.le_succ_of_le hM)) hlen
    | succ n ihn =>
      intro c rest b hn hs hlen
      cases hf : findNext (L + 1) rest with
      | none =>
        refine removeRec_succ_nostep hs hlen (Or.inl hf) ?_
        exact ihL rest.length c rest b (Nat.le_refl _)
          (fun M hM => hs M (Nat.le_succ_of_le hM)) hlen
      | some t =>
        by_cases hle : c.span (L + 1) ≤ b
        · obtain ⟨P, y, ys, hxs, ht, hP, hy⟩ := findNext_some_decomp hf
          subst ht
          have hsy : ∀ M, M ≤ L + 1 → spansOk M (y :: ys) = true := by
            intro M hM
            refine spansOk_decomp (c :: P).length (A := c :: P) (Nat.le_refl _)
              ?_ (Or.inr (Nat.le_trans hM hy))
            rw [show (c :: P) ++ y :: ys = c :: (P ++ y :: ys) from by simp, ← hxs]
            exact hs M hM
          have hly : ∀ nd ∈ y :: ys, lenOk nd = true := by
            intro nd hnd
            refine hlen nd ?_
            rw [hxs] at *
            rcases List.mem_cons.mp hnd with h1 | h2
            · subst h1
              simp
            · simp [h2]
          refine removeRec_step hs hlen hf hle ?_
          refine ihn y ys (b - c.span (L + 1)) ?_ hsy hly
          have := congrArg List.length hxs
          simp only [List.length_append, List.length_cons] at this hn
          omega
        · exact removeRec_succ_nostep hs hlen
            (Or.inr ⟨t, hf, by omega⟩) (ihL rest.length c rest b
              (Nat.le_refl _) (fun M hM => hs M (Nat.le_succ_of_le hM)) hlen)

/-! ## Well-formedness through insert and remove -/

theorem WF_iff {s : List (SkipNode V)} : WF s = true ↔
    s ≠ [] ∧ (∀ nd ∈ s, lenOk nd = true) ∧
    (∀ nd ∈ s.drop 1, nd.level ≤ headLevel s) ∧
    (∀ M, M ≤ headLevel s → spansOk M s = true) := by
  rw [WF]
  simp only [Bool.and_eq_true, List.all_eq_true, List.mem_range, Nat.lt_succ_iff,
    Bool.not_eq_true', List.isEmpty_eq_false, decide_eq_true_eq]
  tauto

theorem fixUpto_all_lenOk {L : Nat} : ∀ {t : List (SkipNode V)},
    (∀ nd ∈ t, lenOk nd = true) → ∀ nd ∈ fixUpto L t, lenOk nd = true := by
  intro t
  induction t with
  | nil => intro _ nd hnd; simp at hnd
  | cons c rest ih =>
    intro h nd hnd
    rw [fixUpto_cons] at hnd
    rcases List.mem_cons.mp hnd with h1 | h2
    · subst h1
      have hc := h c (by simp)
      simp only [lenOk, beq_iff_eq] at hc ⊢
      rw [setSpansUpto_len, setSpansUpto_level, hc]
    · exact ih (fun nd2 hnd2 => h nd2 (by simp [hnd2])) nd h2

theorem fixUpto_all_level {L p : Nat} : ∀ {t : List (SkipNode V)},
    (∀ nd ∈ t, nd.level ≤ p) → ∀ nd ∈ fixUpto L t, nd.level ≤ p := by
  intro t
  induction t with
  | nil => intro _ nd hnd; simp at hnd
  | cons c rest ih =>
    intro h nd hnd
    rw [fixUpto_cons] at hnd
    rcases List.mem_cons.mp hnd with h1 | h2
    · subst h1
      rw [setSpansUpto_level]
      exact h c (by simp)
    · exact ih (fun nd2 hnd2 => h nd2 (by simp [hnd2])) nd h2

theorem rawIns_mem {s : List (SkipNode V)} {q : Nat} {new nd : SkipNode V}
    (h : nd ∈ rawIns s q new) : nd ∈ s ∨ nd = new := by
  rw [rawIns] at h
  rcases List.mem_append.mp h with h1 | h2
  · exact Or.inl (List.mem_of_mem_take h1)
  · rcases List.mem_cons.mp h2 with h3 | h4
    · exact Or.inr h3
    · exact Or.inl (List.mem_of_mem_drop h4)

theorem rawRem_mem {s : List (SkipNode V)} {j : Nat} {nd : SkipNode V}
    (h : nd ∈ rawRem s j) : nd ∈ s := by
  rw [rawRem] at h
  rcases List.mem_append.mp h with h1 | h2
  · exact List.mem_of_mem_take h1
  · exact List.mem_of_mem_drop h2

/-- The canonical rewriting establishes the span invariant at every level it
covers. -/
theorem spansOk_fixUpto {M L : Nat} (hM : M ≤ L) : ∀ (n : Nat)
    (t : List (SkipNode V)), t.length ≤ n →
    (∀ nd ∈ t, lenOk nd = true) →
    (∀ c2 rest2, t = c2 :: rest2 → M < c2.links_len.length) →
    spansOk M (fixUpto L t) = true := by
  intro n
  induction n with
  | zero =>
    intro t hn _ _
    have ht : t = [] := List.eq_nil_of_length_eq_zero (Nat.le_zero.mp hn)
    subst ht
    rfl
  | succ n ih =>
    intro t hn hlen hhead
    cases t with
    | nil => rfl
    | cons c rest =>
      rw [fixUpto_cons]
      refine spansOk_of_parts ?_ ?_
      · rw [setSpansUpto_span_le hM (hhead c rest rfl) rest, gapAt_fixUpto]
      · intro t' ht'
        rw [findNext_fixUpto] at ht'
        cases hu : findNext M rest with
        | none => rw [hu] at ht'; simp at ht'
        | some u =>
          rw [hu] at ht'
          simp only [Option.map_some', Option.some.injEq] at ht'
          subst ht'
          obtain ⟨P, y, ys, hxs, ht2, hP, hy⟩ := findNext_some_decomp hu
          have hu_len := findNext_length_le hu
          refine ih u (by simp only [List.length_cons] at hn; omega) ?_ ?_
          · intro nd hnd
            refine hlen nd ?_
            rw [hxs, ht2] at *
            rcases List.mem_cons.mp hnd with h1 | h2
            · subst h1
              simp
            · simp [h2]
          · intro c2 rest2 hc2
            rw [ht2] at hc2
            injection hc2 with h1 h2
            subst h1
            have := hlen y (by rw [hxs]; simp)
            simp only [lenOk, beq_iff_eq] at this
            rw [this]
            omega

/-- The characterization of the public `insert` on a well-formed structure. -/
theorem insert_spec {c new : SkipNode V} {rest : List (SkipNode V)} {d : Nat}
    (hwf : WF (c :: rest) = true)
    (hnewlen : new.links_len = List.replicate (new.level + 1) 0) :
    insert (c :: rest) new d
      = fixUpto c.level (rawIns (c :: rest) (min d rest.length) new) := by
  obtain ⟨h1, h2, h3, h4⟩ := WF_iff.mp hwf
  rw [insert, insertRec_go hnewlen c.level rest.length c rest d (Nat.le_refl _)
    (fun M hM => h4 M hM) h2]

/-- The characterization of the public `remove` on a well-formed structure. -/
theorem remove_spec {c : SkipNode V} {rest : List (SkipNode V)} {d : Nat}
    (hwf : WF (c :: rest) = true) :
    remove (c :: rest) d =
      if d < rest.length then
        RemoveRes.ok (fixUpto c.level (rawRem (c :: rest) (d + 1)))
          ((rest.getD d dflt).setSpan 0 0) (d + 1)
      else RemoveRes.notFound := by
  obtain ⟨h1, h2, h3, h4⟩ := WF_iff.mp hwf
  rw [remove, removeRec_go c.level rest.length c rest d (Nat.le_refl _)
    (fun M hM => h4 M hM) h2]

theorem headLevel_cons (c : SkipNode V) (rest : List (SkipNode V)) :
    headLevel (c :: rest) = c.level := rfl

/-- `insert` preserves well-formedness when the new node fits under the
sentinel; its head and length are as expected. -/
theorem insert_WF {c new : SkipNode V} {rest : List (SkipNode V)} {d : Nat}
    (hwf : WF (c :: rest) = true)
    (hnewlen : new.links_len = List.replicate (new.level + 1) 0)
    (hnlv : new.level ≤ c.level) :
    WF (insert (c :: rest) new d) = true ∧
    headLevel (insert (c :: rest) new d) = c.level ∧
    (insert (c :: rest) new d).length = rest.length + 2 := by
  obtain ⟨h1, h2, h3, h4⟩ := WF_iff.mp hwf
  rw [insert_spec hwf hnewlen]
  set q := min d rest.length with hq
  have hqle : q ≤ rest.length := by omega
  have hXc : rawIns (c :: rest) q new
      = c :: (rest.take q ++ new :: rest.drop q) := rawIns_cons hqle
  have hXmem : ∀ nd ∈ rawIns (c :: rest) q new, nd ∈ c :: rest ∨ nd = new :=
    fun nd hnd => rawIns_mem hnd
  have hXlen : ∀ nd ∈ rawIns (c :: rest) q new, lenOk nd = true := by
    intro nd hnd
    rcases hXmem nd hnd with h | h
    · exact h2 nd h
    · subst h
      simp [lenOk, hnewlen]
  have hhead : headLevel (fixUpto c.level (rawIns (c :: rest) q new)) = c.level := by
    rw [hXc, fixUpto_cons, headLevel_cons, setSpansUpto_level]
  refine ⟨WF_iff.mpr ⟨?_, ?_, ?_, ?_⟩, hhead, ?_⟩
  · rw [hXc, fixUpto_cons]
    simp
  · exact fixUpto_all_lenOk hXlen
  · rw [hhead, hXc, fixUpto_cons]
    simp only [List.drop_succ_cons, List.drop_zero]
    refine fixUpto_all_level ?_
    intro nd hnd
    rcases List.mem_append.mp hnd with hA | hB
    · have := h3 nd (by simpa using List.mem_of_mem_take hA)
      simpa [headLevel_cons] using this
    · rcases List.mem_cons.mp hB with hC | hD
      · subst hC
        exact hnlv
      · have := h3 nd (by simpa using List.mem_of_mem_drop hD)
        simpa [headLevel_cons] using this
  · rw [hhead]
    intro M hM
    refine spansOk_fixUpto hM (rawIns (c :: rest) q new).length _ (Nat.le_refl _)
      hXlen ?_
    intro c2 rest2 hc2
    rw [hXc] at hc2
    injection hc2 with hh1 hh2
    subst hh1
    have := h2 c (by simp)
    simp only [lenOk, beq_iff_eq] at this
    rw [this]
    omega
  · rw [fixUpto_length, rawIns_length _ _ _ (by simp; omega)]
    simp

/-- `remove` preserves well-formedness; head and length as expected. -/
theorem remove_WF {c : SkipNode V} {rest s2 : List (SkipNode V)}
    {rem : SkipNode V} {d d2 : Nat}
    (hwf : WF (c :: rest) = true)
    (hok : remove (c :: rest) d = RemoveRes.ok s2 rem d2) :
    WF s2 = true ∧ headLevel s2 = c.level ∧ s2.length = rest.length := by
  obtain ⟨h1, h2, h3, h4⟩ := WF_iff.mp hwf
  rw [remove_spec hwf] at hok
  rcases Nat.lt_or_ge d rest.length with hd | hd
  · rw [if_pos hd] at hok
    injection hok with hs2 hrem hd2
    subst hs2
    have hXc : rawRem (c :: rest) (d + 1) = c :: rawRem rest d :=
      rawRem_cons c rest d
    have hXmem : ∀ nd ∈ rawRem (c :: rest) (d + 1), nd ∈ c :: rest :=
      fun nd hnd => rawRem_mem hnd
    have hXlen : ∀ nd ∈ rawRem (c :: rest) (d + 1), lenOk nd = true :=
      fun nd hnd => h2 nd (hXmem nd hnd)
    have hhead : headLevel (fixUpto c.level (rawRem (c :: rest) (d + 1)))
        = c.level := by
      rw [hXc, fixUpto_cons, headLevel_cons, setSpansUpto_level]
    refine ⟨WF_iff.mpr ⟨?_, ?_, ?_, ?_⟩, hhead, ?_⟩
    · rw [hXc, fixUpto_cons]
      simp
    · exact fixUpto_all_lenOk hXlen
    · rw [hhead, hXc, fixUpto_cons]
      simp only [List.drop_succ_cons, List.drop_zero]
      refine fixUpto_all_level ?_
      intro nd hnd
      have hmem : nd ∈ rest := by
        have := rawRem_mem (s := rest) (j := d) hnd
        exact this
      have := h3 nd (by simpa using hmem)
      simpa [headLevel_cons] using this
    · rw [hhead]
      intro M hM
      refine spansOk_fixUpto hM (rawRem (c :: rest) (d + 1)).length _ (Nat.le_refl _)
        hXlen ?_
      intro c2 rest2 hc2
      rw [hXc] at hc2
      injection hc2 with hh1 hh2
      subst hh1
      have := h2 c (by simp)
      simp only [lenOk, beq_iff_eq] at this
      rw [this]
      omega
    · rw [fixUpto_length, rawRem_length _ _ (by simp; omega)]
      simp
  · rw [if_neg (by omega)] at hok
    exact absurd hok (by simp)

theorem chainSumsAux_ok {L slen : Nat} : ∀ (scan : List (SkipNode V)) (acc : Nat)
    (c : SkipNode V) (J : List (SkipNode V)),
    (∀ nd ∈ J, nd.level < L) →
    spansOk L (c :: (J ++ scan)) = true →
    acc + (c :: (J ++ scan)).length = slen →
    ∀ p ∈ chainSumsAux L acc (c :: (J ++ scan)) scan,
      p.1 + p.2.length = slen := by
  intro scan
  induction scan with
  | nil =>
    intro acc c J hJ hs hacc p hp
    simp only [chainSumsAux, List.mem_singleton] at hp
    subst hp
    exact hacc
  | cons x xs ih =>
    intro acc c J hJ hs hacc p hp
    by_cases hx : L ≤ x.level
    · rw [chainSumsAux, if_pos hx] at hp
      rcases List.mem_cons.mp hp with h1 | h2
      · subst h1
        exact hacc
      · have hfind : findNext L (J ++ x :: xs) = some (x :: xs) := by
          rw [findNext_append_pad _ hJ, findNext_cons_of_le _ hx]
        have hspan : c.span L = J.length + 1 := by
          have h3 := spansOk_head hs
          rw [h3, gapAt_append_pad _ hJ, gapAt_cons, if_pos hx]
        have hnext : spansOk L (x :: xs) = true := spansOk_next hs hfind
        have h4 := ih (acc + hdSpan L (c :: (J ++ x :: xs))) x []
          (by simp) (by simpa using hnext) ?_ p (by simpa using h2)
        · exact h4
        · rw [hdSpan_cons, hspan]
          simp only [List.nil_append, List.length_cons, List.length_append,
            List.length_cons] at hacc ⊢
          omega
    · rw [chainSumsAux, if_neg hx] at hp
      have hJx : ∀ nd ∈ J ++ [x], nd.level < L := by
        intro nd hnd
        rcases List.mem_append.mp hnd with h1 | h2
        · exact hJ nd h1
        · rcases List.mem_singleton.mp h2 with rfl
          omega
      have hre : J ++ x :: xs = (J ++ [x]) ++ xs := by simp
      have h4 := ih acc c (J ++ [x]) hJx (by rw [← hre]; exact hs)
        (by rw [← hre]; exact hacc) p ?_
      · exact h4
      · rw [hre] at hp
        exact hp

/-- The span invariant implies the rank-sum invariant. -/
theorem rankOk_of_spansOk {L : Nat} {s : List (SkipNode V)}
    (hs : spansOk L s = true) : rankOk L s = true := by
  cases s with
  | nil => rfl
  | cons c rest =>
    rw [rankOk, List.all_eq_true]
    intro p hp
    have h : p.1 + p.2.length = (c :: rest).length :=
      chainSumsAux_ok rest 0 c []
        (by simp) (by simpa using hs) (by simp) p (by simpa [chainSums] using hp)
    simp only [beq_iff_eq]
    omega

/-- Well-formedness is preserved by one operation compatible with the
sentinel height, which itself never changes. -/
theorem applyOp_WF {s : List (SkipNode V)} {op : Op V}
    (hwf : WF s = true) (hop : opOk (headLevel s) op = true) :
    WF (applyOp s op) = true ∧ headLevel (applyOp s op) = headLevel s := by
  obtain ⟨h1, h2, h3, h4⟩ := WF_iff.mp hwf
  cases s with
  | nil => exact absurd rfl h1
  | cons c rest =>
    cases op with
    | ins v lvl d =>
      have hlvl : lvl ≤ c.level := by
        simpa [opOk, headLevel_cons] using hop
      have h := insert_WF (d := d) hwf
        (by simp : (SkipNode.new v lvl).links_len
          = List.replicate ((SkipNode.new v lvl).level + 1) 0)
        (by simpa using hlvl)
      exact ⟨h.1, by rw [applyOp]; rw [headLevel_cons]; exact h.2.1⟩
    | rem d =>
      rw [applyOp]
      cases hr : remove (c :: rest) d with
      | notFound => exact ⟨hwf, rfl⟩
      | panicked => exact ⟨hwf, rfl⟩
      | ok s2 rem d2 =>
        have h := remove_WF hwf hr
        exact ⟨h.1, by rw [headLevel_cons]; exact h.2.1⟩

/-- Well-formedness (and the sentinel height) survives any sequence of
compatible operations. -/
theorem applyOps_WF {s : List (SkipNode V)} {ops : List (Op V)}
    (hwf : WF s = true) (hops : ∀ op ∈ ops, opOk (headLevel s) op = true) :
    WF (applyOps s ops) = true ∧ headLevel (applyOps s ops) = headLevel s := by
  induction ops generalizing s with
  | nil => exact ⟨hwf, rfl⟩
  | cons op ops ih =>
    have h1 := applyOp_WF hwf (hops op (by simp))
    have h2 := ih (s := applyOp s op) h1.1 (fun op2 hop2 => by
      rw [h1.2]
      exact hops op2 (by simp [hop2]))
    rw [applyOps, List.foldl_cons]
    exact ⟨h2.1, by rw [← applyOps]; rw [h2.2, h1.2]⟩

/-- The rank-sum invariant holds at every level of a well-formed structure
(levels above the sentinel have no reachable nodes beyond the head). -/
theorem rankOk_of_WF {s : List (SkipNode V)} (hwf : WF s = true) (L : Nat) :
    rankOk L s = true := by
  obtain ⟨h1, h2, h3, h4⟩ := WF_iff.mp hwf
  rcases Nat.lt_or_ge (headLevel s) L with hL | hL
  case inr => exact rankOk_of_spansOk (h4 L hL)
  case inl =>
    cases s with
    | nil => rfl
    | cons c rest =>
      have hnone : findNext L rest = none := by
        refine findNext_none_iff.mpr ?_
        intro nd hnd
        have := h3 nd (by simpa using hnd)
        rw [headLevel_cons] at this hL
        omega
      have hchain : chainSums L (c :: rest) = [(0, c :: rest)] := by
        rw [chainSums]
        obtain ⟨P, hP⟩ : ∃ P, rest = P ++ [] ∧ True := ⟨rest, by simp, trivial⟩
        have hall : ∀ nd ∈ rest, nd.level < L := findNext_none_iff.mp hnone
        clear hP
        have haux : ∀ (J scan : List (SkipNode V)) (acc : Nat)
            (cur : List (SkipNode V)), (∀ nd ∈ scan, nd.level < L) →
            chainSumsAux L acc cur scan = [(acc, cur)] := by
          intro J scan
          induction scan with
          | nil => intro acc cur _; rfl
          | cons x xs ih2 =>
            intro acc cur hsc
            rw [chainSumsAux, if_neg (Nat.not_le.mpr (hsc x (by simp)))]
            exact ih2 acc cur (fun nd hnd => hsc nd (by simp [hnd]))
        exact haux [] rest 0 (c :: rest) hall
      rw [rankOk, hchain]
      simp

/-- C1: on a well-formed structure, after any sequence of inserts and removes
(each insert no taller than the sentinel), the rank-sum invariant holds at
every level: along the level-`L` chain from the sentinel the accumulated
`links_len[L]` up to and including the link reaching a node equals that
node's 0-based position; each single insert or remove also preserves it. -/
theorem claim_C1 {V : Type u} (s : List (SkipNode V)) (ops : List (Op V))
    (hwf : WF s = true) (hops : ∀ op ∈ ops, opOk (headLevel s) op = true) :
    (∀ L, rankOk L (applyOps s ops) = true) ∧
    (∀ op, opOk (headLevel s) op = true → ∀ L, rankOk L (applyOp s op) = true) :=
  ⟨fun L => rankOk_of_WF (applyOps_WF hwf hops).1 L,
    fun op hop L => rankOk_of_WF (applyOp_WF hwf hop).1 L⟩

theorem claim_C1_witness :
    WF (exHead :: exRest) = true ∧
    rankOk 1 (applyOps (exHead :: exRest)
      [Op.ins 15 1 1, Op.rem 0]) = true :=
  ⟨by decide, (claim_C1 (exHead :: exRest) [Op.ins 15 1 1, Op.rem 0]
    (by decide) (by decide)).1 1⟩

/-- C2: on a well-formed structure, `remove d` succeeds exactly when an
element lies `d` element-positions after the sentinel, returning that element
(payload intact) and the distance actually travelled `d + 1`; otherwise it
reports not-found, and it never panics — running past the end is not an
error. -/
theorem claim_C2 {V : Type u} (c : SkipNode V) (rest : List (SkipNode V)) (d : Nat)
    (hwf : WF (c :: rest) = true) :
    remove (c :: rest) d ≠ RemoveRes.panicked ∧
    (d < rest.length ↔ ∃ s2 rem dist, remove (c :: rest) d = RemoveRes.ok s2 rem dist ∧
      rem.value = (rest.getD d dflt).value ∧ dist = d + 1) ∧
    (rest.length ≤ d ↔ remove (c :: rest) d = RemoveRes.notFound) := by
  rw [remove_spec hwf]
  rcases Nat.lt_or_ge d rest.length with hd | hd
  · rw [if_pos hd]
    refine ⟨by simp, ?_, ?_⟩
    · constructor
      · intro _
        exact ⟨_, _, _, rfl, by simp, rfl⟩
      · intro _
        exact hd
    · constructor
      · intro h
        omega
      · intro h
        exact absurd h (by simp)
  · rw [if_neg (by omega)]
    refine ⟨by simp, ?_, ?_⟩
    · constructor
      · intro h
        omega
      · rintro ⟨s2, rem, dist, h, -⟩
        exact absurd h (by simp)
    · exact ⟨fun _ => rfl, fun _ => hd⟩

theorem claim_C2_witness :
    (∃ s2 rem dist, remove (exHead :: exRest) 1 = RemoveRes.ok s2 rem dist ∧
      rem.value = (exRest.getD 1 dflt).value ∧ dist = 2) ∧
    remove (exHead :: exRest) 3 = RemoveRes.notFound :=
  ⟨((claim_C2 exHead exRest 1 (by decide)).2.1).mp (by decide),
    ((claim_C2 exHead exRest 3 (by decide)).2.2).mp (by decide)⟩

/-- C7: on a well-formed structure the defensive `assert_eq!` in `_remove`
never fires: no remove call ends in the panic branch. -/
theorem claim_C7 {V : Type u} (c : SkipNode V) (rest : List (SkipNode V)) (d : Nat)
    (hwf : WF (c :: rest) = true) :
    remove (c :: rest) d ≠ RemoveRes.panicked := by
  rw [remove_spec hwf]
  rcases Nat.lt_or_ge d rest.length with hd | hd
  · rw [if_pos hd]
    simp
  · rw [if_neg (by omega)]
    simp

theorem claim_C7_witness :
    remove (exHead :: exRest) 2 ≠ RemoveRes.panicked :=
  claim_C7 exHead exRest 2 (by decide)

/-- C3 (amended): the value `self.insert(new_node, distance)` evaluates to is
`()` — the public `insert` has no return value.  It is the private `_insert`
underneath that returns the pair (reference to the inserted node, actual
distance): on a well-formed structure both the reference index and the
distance are `min distance (element count) + 1`, and the reference designates
the newly inserted node. -/
theorem claim_C3_amended {V : Type u} (c new : SkipNode V)
    (rest : List (SkipNode V)) (d : Nat)
    (hwf : WF (c :: rest) = true)
    (hnewlen : new.links_len = List.replicate (new.level + 1) 0) :
    insertReturn (c :: rest) new d = () ∧
    (insertRec new c.level (c :: rest) d).2.1 = min d rest.length + 1 ∧
    (insertRec new c.level (c :: rest) d).2.2 = min d rest.length + 1 ∧
    ((insertRec new c.level (c :: rest) d).1.getD
      (min d rest.length + 1) dflt).value = new.value := by
  obtain ⟨h1, h2, h3, h4⟩ := WF_iff.mp hwf
  have hgo := insertRec_go hnewlen c.level rest.length c rest d (Nat.le_refl _)
    (fun M hM => h4 M hM) h2
  rw [hgo]
  refine ⟨rfl, rfl, rfl, ?_⟩
  have hq : min d rest.length + 1 < (rawIns (c :: rest) (min d rest.length) new).length := by
    rw [rawIns_length _ _ _ (by simp only [List.length_cons]; omega)]
    simp only [List.length_cons]
    omega
  rw [fixUpto_getD _ _ _ hq,
    rawIns_getD_mid (by simp only [List.length_cons]; omega), setSpansUpto_value]

theorem claim_C3_amended_witness :
    ((insertRec (SkipNode.new 77 1) exHead.level (exHead :: exRest) 2).2.1 = 3) ∧
    (((insertRec (SkipNode.new 77 1) exHead.level (exHead :: exRest) 2).1.getD 3
      dflt).value = some 77) := by
  have h := claim_C3_amended exHead (SkipNode.new 77 1) exRest 2
    (by decide) (by decide)
  refine ⟨?_, ?_⟩
  · have := h.2.1
    simpa using this
  · have := h.2.2.2
    simpa using this

end SkipList

namespace SkipNode

variable {V : Type u}

theorem setSpan_setSpan (nd : SkipNode V) (i v w : Nat) :
    (nd.setSpan i v).setSpan i w = nd.setSpan i w := by
  cases nd with
  | mk vv lvl ll =>
    simp [setSpan, List.set_set]

theorem setSpan_comm (nd : SkipNode V) {i j : Nat} (v w : Nat) (h : i ≠ j) :
    (nd.setSpan i v).setSpan j w = (nd.setSpan j w).setSpan i v := by
  cases nd with
  | mk vv lvl ll =>
    simp only [setSpan, mk.injEq, and_true, true_and]
    exact List.set_comm _ _ _ h

end SkipNode

namespace SkipList

variable {V : Type u}

theorem setSpansUpto_setSpan_high {L M : Nat} (h : L < M) (nd : SkipNode V)
    (w : Nat) (T : List (SkipNode V)) :
    setSpansUpto L (nd.setSpan M w) T = (setSpansUpto L nd T).setSpan M w := by
  induction L with
  | zero =>
    rw [setSpansUpto, setSpansUpto]
    exact SkipNode.setSpan_comm nd _ _ (by omega)
  | succ L ih =>
    rw [setSpansUpto, setSpansUpto, ih (by omega)]
    exact SkipNode.setSpan_comm _ _ _ (by omega)

theorem setSpansUpto_absorb (L : Nat) (a : SkipNode V)
    (T1 T2 : List (SkipNode V)) :
    setSpansUpto L (setSpansUpto L a T1) T2 = setSpansUpto L a T2 := by
  induction L with
  | zero =>
    rw [setSpansUpto, setSpansUpto, setSpansUpto, SkipNode.setSpan_setSpan]
  | succ L ih =>
    rw [setSpansUpto, setSpansUpto, setSpansUpto,
      setSpansUpto_setSpan_high (Nat.lt_succ_self L), ih,
      SkipNode.setSpan_setSpan]

theorem setSpansUpto_congr {L : Nat} (a : SkipNode V) {T1 T2 : List (SkipNode V)}
    (h : ∀ M, M ≤ L → gapAt M T1 = gapAt M T2) :
    setSpansUpto L a T1 = setSpansUpto L a T2 := by
  induction L with
  | zero => rw [setSpansUpto, setSpansUpto, h 0 (Nat.le_refl _)]
  | succ L ih =>
    rw [setSpansUpto, setSpansUpto, h (L + 1) (Nat.le_refl _),
      ih (fun M hM => h M (Nat.le_succ_of_le hM))]

theorem gapAt_congr_levels {M : Nat} : ∀ {t1 t2 : List (SkipNode V)},
    t1.map SkipNode.level = t2.map SkipNode.level → gapAt M t1 = gapAt M t2
  | [], [], _ => rfl
  | [], _ :: _, h => by simp at h
  | _ :: _, [], h => by simp at h
  | x :: xs, y :: ys, h => by
    simp only [List.map_cons, List.cons.injEq] at h
    rw [gapAt_cons, gapAt_cons, h.1, gapAt_congr_levels h.2]

theorem fixUpto_map_level (L : Nat) : ∀ (t : List (SkipNode V)),
    (fixUpto L t).map SkipNode.level = t.map SkipNode.level
  | [] => rfl
  | c :: rest => by
    rw [fixUpto_cons, List.map_cons, List.map_cons, setSpansUpto_level,
      fixUpto_map_level L rest]

/-- Removing a position from the canonically rewritten list and rewriting
again is rewriting the plainly shortened list: the intermediate span values
are all overwritten. -/
theorem fixUpto_rawRem_fixUpto {L j : Nat} {Y : List (SkipNode V)}
    (hj : j < Y.length) :
    fixUpto L (rawRem (fixUpto L Y) j) = fixUpto L (rawRem Y j) := by
  have hjle : j ≤ Y.length := Nat.le_of_lt hj
  have hjleF : j ≤ (fixUpto L Y).length := by rwa [fixUpto_length]
  have hlen1 : (rawRem (fixUpto L Y) j).length = Y.length - 1 := by
    rw [rawRem_length _ _ (by rwa [fixUpto_length]), fixUpto_length]
  have hlen2 : (rawRem Y j).length = Y.length - 1 := rawRem_length _ _ hj
  refine listExt dflt _ _ (by rw [fixUpto_length, fixUpto_length, hlen1, hlen2]) ?_
  intro i hi
  have hi2 : i < Y.length - 1 := by rwa [fixUpto_length, hlen1] at hi
  rw [fixUpto_getD _ _ _ (by rw [hlen1]; omega),
    fixUpto_getD _ _ _ (by rw [hlen2]; omega)]
  have htail : ∀ M, M ≤ L → gapAt M ((rawRem (fixUpto L Y) j).drop (i + 1))
      = gapAt M ((rawRem Y j).drop (i + 1)) := by
    intro M hM
    refine gapAt_congr_levels ?_
    rw [List.map_drop, List.map_drop]
    congr 1
    rw [rawRem, rawRem, List.map_append, List.map_append, List.map_take,
      List.map_take, List.map_drop, List.map_drop, fixUpto_map_level]
  rcases Nat.lt_or_ge i j with hij | hij
  · rw [rawRem_getD_lt hjleF hij, rawRem_getD_lt hjle hij,
      fixUpto_getD _ _ _ (by omega), setSpansUpto_absorb]
    exact setSpansUpto_congr _ htail
  · rw [rawRem_getD_ge hjleF hij, rawRem_getD_ge hjle hij,
      fixUpto_getD _ _ _ (by omega), setSpansUpto_absorb]
    exact setSpansUpto_congr _ htail

/-- Deleting the spliced position undoes the splice. -/
theorem rawRem_rawIns {s : List (SkipNode V)} {q : Nat} {new : SkipNode V}
    (hq : q + 1 ≤ s.length) :
    rawRem (rawIns s q new) (q + 1) = s := by
  rw [rawIns, rawRem]
  have htk : (s.take (q + 1)).length = q + 1 := take_len_of_le _ _ hq
  have h1 : (s.take (q + 1) ++ new :: s.drop (q + 1)).take (q + 1) = s.take (q + 1) := by
    have := List.take_left (s.take (q + 1)) (new :: s.drop (q + 1))
    rwa [htk] at this
  have h2 : (s.take (q + 1) ++ new :: s.drop (q + 1)).drop (q + 1 + 1)
      = s.drop (q + 1) := by
    have := listDrop_append (s.take (q + 1)) (new :: s.drop (q + 1)) 1
    rw [htk] at this
    simpa using this
  rw [h1, h2, List.take_append_drop]

/-- C4: inserting a fresh node carrying `v` at offset `d` and then removing
at offset `d` succeeds, returns a node whose payload is `v`, and restores the
entire structure — in particular every `links_len` span of every node — to
its pre-insert state. -/
theorem claim_C4 {V : Type u} (c : SkipNode V) (rest : List (SkipNode V))
    (v : V) (lvl d : Nat) (hwf : WF (c :: rest) = true)
    (hlvl : lvl ≤ c.level) (hd : d ≤ rest.length) :
    ∃ s2 rem, remove (insert (c :: rest) (SkipNode.new v lvl) d) d
        = RemoveRes.ok s2 rem (d + 1) ∧ rem.value = some v ∧ s2 = c :: rest := by
  obtain ⟨h1, h2, h3, h4⟩ := WF_iff.mp hwf
  set new := SkipNode.new v lvl with hnewdef
  have hnewlen : new.links_len = List.replicate (new.level + 1) 0 := by
    rw [hnewdef]
    simp
  have hq : min d rest.length = d := by omega
  have hins := insert_spec (d := d) hwf hnewlen
  rw [hq] at hins
  have hYc : rawIns (c :: rest) d new
      = c :: (rest.take d ++ new :: rest.drop d) := rawIns_cons hd
  set T := rest.take d ++ new :: rest.drop d with hTdef
  have hTlen : T.length = rest.length + 1 := by
    rw [hTdef]
    simp only [List.length_append, List.length_take, List.length_cons,
      List.length_drop]
    omega
  have hs' : insert (c :: rest) new d
      = setSpansUpto c.level c T :: fixUpto c.level T := by
    rw [hins, hYc, fixUpto_cons]
  have hwf' := insert_WF (d := d) hwf hnewlen (by rw [hnewdef]; simpa using hlvl)
  have hwf'2 : WF (setSpansUpto c.level c T :: fixUpto c.level T) = true := by
    rw [← hs']
    exact hwf'.1
  have hrs := remove_spec (d := d) hwf'2
  have hdlt : d < (fixUpto c.level T).length := by
    rw [fixUpto_length, hTlen]
    omega
  rw [if_pos hdlt, setSpansUpto_level] at hrs
  have hcons : setSpansUpto c.level c T :: fixUpto c.level T
      = fixUpto c.level (rawIns (c :: rest) d new) := by
    rw [hYc, fixUpto_cons]
  refine ⟨fixUpto c.level
      (rawRem (setSpansUpto c.level c T :: fixUpto c.level T) (d + 1)),
    ((fixUpto c.level T).getD d dflt).setSpan 0 0, ?_, ?_, ?_⟩
  · rw [hs']
    exact hrs
  · have hget : ((fixUpto c.level T).getD d dflt).value = new.value := by
      have hgY : (fixUpto c.level T).getD d dflt
          = (fixUpto c.level (rawIns (c :: rest) d new)).getD (d + 1) dflt := by
        rw [hYc, fixUpto_cons, listGetD_cons_succ]
      rw [hgY, fixUpto_getD _ _ _ (by
          rw [rawIns_length _ _ _ (by simp only [List.length_cons]; omega)]
          simp only [List.length_cons]
          omega),
        rawIns_getD_mid (by simp only [List.length_cons]; omega), setSpansUpto_value]
    rw [SkipNode.setSpan_value, hget, hnewdef]
    simp
  · rw [hcons, fixUpto_rawRem_fixUpto (by
      rw [rawIns_length _ _ _ (by simp only [List.length_cons]; omega)]
      simp only [List.length_cons]
      omega),
      rawRem_rawIns (by simp only [List.length_cons]; omega)]
    exact fixUpto_eq_self _ (fun M hM => h4 M hM) h2

theorem claim_C4_witness :
    ∃ s2 rem, remove (insert (exHead :: exRest) (SkipNode.new 55 1) 2) 2
        = RemoveRes.ok s2 rem 3 ∧ rem.value = some 55 ∧ s2 = exHead :: exRest :=
  claim_C4 exHead exRest 55 1 2 (by decide) (by decide) (by decide)

/-! ## The chain of reachable nodes and `distance` (claim C5) -/

theorem chainSufsAux_pad {L : Nat} : ∀ {P : List (SkipNode V)}
    (cur r : List (SkipNode V)), (∀ nd ∈ P, nd.level < L) →
    chainSufsAux L cur (P ++ r) = chainSufsAux L cur r
  | [], _, _, _ => rfl
  | p :: P, cur, r, h => by
    rw [List.cons_append, chainSufsAux, if_neg (Nat.not_le.mpr (h p (by simp)))]
    exact chainSufsAux_pad cur r (fun nd hnd => h nd (by simp [hnd]))

theorem chainSufs_none {L : Nat} {c : SkipNode V} {rest : List (SkipNode V)}
    (h : findNext L rest = none) : chainSufs L (c :: rest) = [c :: rest] := by
  rw [chainSufs]
  have hP := findNext_none_iff.mp h
  have h2 := chainSufsAux_pad (P := rest) (c :: rest) [] hP
  simpa [chainSufsAux] using h2

theorem chainSufs_step {L : Nat} {c : SkipNode V} {rest t : List (SkipNode V)}
    (h : findNext L rest = some t) :
    chainSufs L (c :: rest) = (c :: rest) :: chainSufs L t := by
  obtain ⟨P, y, ys, hxs, ht, hP, hy⟩ := findNext_some_decomp h
  subst ht
  rw [chainSufs, hxs, chainSufsAux_pad _ _ hP, chainSufsAux, if_pos hy, chainSufs]

theorem chainSufs_head_mem (L : Nat) (c : SkipNode V) (rest : List (SkipNode V)) :
    c :: rest ∈ chainSufs L (c :: rest) := by
  cases hf : findNext L rest with
  | none => rw [chainSufs_none hf]; simp
  | some u => rw [chainSufs_step hf]; simp

theorem chainSufs_length_le {L : Nat} : ∀ (n : Nat) (c : SkipNode V)
    (rest t : List (SkipNode V)), rest.length ≤ n →
    t ∈ chainSufs L (c :: rest) → t.length ≤ (c :: rest).length := by
  intro n
  induction n with
  | zero =>
    intro c rest t hn hmem
    have hr : rest = [] := List.eq_nil_of_length_eq_zero (Nat.le_zero.mp hn)
    subst hr
    rw [chainSufs_none (by simp)] at hmem
    rw [List.mem_singleton.mp hmem]
  | succ n ih =>
    intro c rest t hn hmem
    cases hf : findNext L rest with
    | none =>
      rw [chainSufs_none hf] at hmem
      rw [List.mem_singleton.mp hmem]
    | some u =>
      rw [chainSufs_step hf] at hmem
      rcases List.mem_cons.mp hmem with h1 | h2
      · rw [h1]
      · obtain ⟨P, y, ys, hxs, ht, hP, hy⟩ := findNext_some_decomp hf
        subst ht
        have hu := findNext_length_le hf
        have h3 := ih y ys t (by
          simp only [List.length_cons] at hu
          omega) h2
        simp only [List.length_cons] at h3 hu ⊢
        omega

/-- The walk of `distance(level, Some(target))`: it lands on `target` exactly
when `target` lies on the level-`L` chain, and then the accumulated spans are
`target`'s position. -/
theorem advance_while_target [DecidableEq V] {L : Nat} (t : List (SkipNode V)) :
    ∀ (n : Nat) (c : SkipNode V) (rest : List (SkipNode V)), rest.length ≤ n →
    spansOk L (c :: rest) = true →
    ((advance_while L (fun _ cur _next => (decide (¬ cur = t), ()))
        (c :: rest) ()).1 = t ↔ t ∈ chainSufs L (c :: rest)) ∧
    ((advance_while L (fun _ cur _next => (decide (¬ cur = t), ()))
        (c :: rest) ()).1 = t →
      (advance_while L (fun _ cur _next => (decide (¬ cur = t), ()))
        (c :: rest) ()).2.1 = (c :: rest).length - t.length) := by
  intro n
  induction n with
  | zero =>
    intro c rest hn hs
    have hr : rest = [] := List.eq_nil_of_length_eq_zero (Nat.le_zero.mp hn)
    subst hr
    rw [advance_while_none (by simp)]
    refine ⟨?_, ?_⟩
    · rw [chainSufs_none (by simp)]
      simp [eq_comm]
    · intro h
      rw [← h]
      simp
  | succ n ih =>
    intro c rest hn hs
    cases hu : findNext L rest with
    | none =>
      rw [advance_while_none hu]
      refine ⟨?_, ?_⟩
      · rw [chainSufs_none hu]
        simp [eq_comm]
      · intro h
        rw [← h]
        simp
    | some u =>
      by_cases hct : c :: rest = t
      · rw [advance_while_step hu]
        have hd : decide (¬ (c :: rest) = t) = false := by simp [hct]
        simp only [hd]
        refine ⟨?_, ?_⟩
        · rw [chainSufs_step hu]
          constructor
          · intro _
            rw [← hct]
            exact List.mem_cons_self _ _
          · intro _
            exact hct
        · intro h
          rw [← h]
          simp
      · rw [advance_while_step hu]
        have hd : decide (¬ (c :: rest) = t) = true := by simpa using hct
        simp only [hd]
        obtain ⟨P, y, ys, hxs, ht, hP, hy⟩ := findNext_some_decomp hu
        subst ht
        have hnext : spansOk L (y :: ys) = true := spansOk_next hs hu
        have hulen := findNext_length_le hu
        have hIH := ih y ys (by
          simp only [List.length_cons] at hulen
          omega) hnext
        have hspan : c.span L = rest.length - ys.length := by
          have h1 := spansOk_head hs
          rw [h1, gapAt, hu]
          simp only [List.length_cons] at hulen ⊢
          omega
        refine ⟨?_, ?_⟩
        · rw [hIH.1, chainSufs_step hu]
          constructor
          · intro h
            exact List.mem_cons_of_mem _ h
          · intro h
            rcases List.mem_cons.mp h with h1 | h2
            · exact absurd h1.symm hct
            · exact h2
        · intro h
          rw [hIH.2 h, hspan]
          have htlen : t.length ≤ (y :: ys : List (SkipNode V)).length :=
            chainSufs_length_le ys.length y ys t (Nat.le_refl _) (hIH.1.mp h)
          simp only [List.length_cons] at htlen hulen ⊢
          omega

/-- The walk of `distance(level, None)`: the spans accumulated to the last
chain node plus its stored span count the elements after the start node. -/
theorem advance_while_chain_total {L : Nat} :
    ∀ (n : Nat) (c : SkipNode V) (rest : List (SkipNode V)), rest.length ≤ n →
    spansOk L (c :: rest) = true →
    hdSpan L (advance_while L (fun _ _cur _next => (true, ()))
        (c :: rest) ()).1 +
      (advance_while L (fun _ _cur _next => (true, ())) (c :: rest) ()).2.1
      = rest.length := by
  intro n
  induction n with
  | zero =>
    intro c rest hn hs
    have hr : rest = [] := List.eq_nil_of_length_eq_zero (Nat.le_zero.mp hn)
    subst hr
    rw [advance_while_none (by simp)]
    have h1 := spansOk_head hs
    simp only [hdSpan, h1]
    simp [gapAt]
  | succ n ih =>
    intro c rest hn hs
    cases hu : findNext L rest with
    | none =>
      rw [advance_while_none hu]
      have h1 := spansOk_head hs
      simp only [hdSpan, h1]
      rw [gapAt, hu]
      simp
    | some u =>
      rw [advance_while_step hu]
      obtain ⟨P, y, ys, hxs, ht, hP, hy⟩ := findNext_some_decomp hu
      subst ht
      have hnext : spansOk L (y :: ys) = true := spansOk_next hs hu
      have hulen := findNext_length_le hu
      have hIH := ih y ys (by
        simp only [List.length_cons] at hulen
        omega) hnext
      have hspan : c.span L = rest.length - ys.length := by
        have h1 := spansOk_head hs
        rw [h1, gapAt, hu]
        simp only [List.length_cons] at hulen ⊢
        omega
      simp only []
      rw [show hdSpan L (advance_while L (fun _ _cur _next => (true, ()))
          (y :: ys) ()).1 + (c.span L + (advance_while L
          (fun _ _cur _next => (true, ())) (y :: ys) ()).2.1)
        = c.span L + (hdSpan L (advance_while L (fun _ _cur _next => (true, ()))
          (y :: ys) ()).1 + (advance_while L (fun _ _cur _next => (true, ()))
          (y :: ys) ()).2.1) from by omega, hIH, hspan]
      simp only [List.length_cons] at hulen ⊢
      omega

/-- C5: on a well-formed structure, `distance(level, Some(target))` returns
the accumulated span from self to `target` — its 0-based position — exactly
when `target` is reachable by following the level-`level` links, and reports
the unreachable failure otherwise; `distance(level, None)` returns the
accumulated span to the end of the chain, which is the number of elements
held (10 in the ten-element scenario). -/
theorem claim_C5 {V : Type u} [DecidableEq V] (c : SkipNode V)
    (rest : List (SkipNode V)) (L : Nat) (hwf : WF (c :: rest) = true)
    (hL : L ≤ headLevel (c :: rest)) :
    (∀ t, distance L (c :: rest) (some t) =
      if t ∈ chainSufs L (c :: rest)
      then Except.ok ((c :: rest).length - t.length)
      else Except.error ()) ∧
    distance L (c :: rest) none = Except.ok rest.length := by
  obtain ⟨h1, h2, h3, h4⟩ := WF_iff.mp hwf
  have hs := h4 L hL
  constructor
  · intro t
    have h := advance_while_target t rest.length c rest (Nat.le_refl _) hs
    simp only [distance]
    by_cases hmem : t ∈ chainSufs L (c :: rest)
    · rw [if_pos hmem, if_pos (h.1.mpr hmem), h.2 (h.1.mpr hmem)]
    · rw [if_neg hmem, if_neg (fun hc => hmem (h.1.mp hc))]
  · have h := advance_while_chain_total rest.length c rest (Nat.le_refl _) hs
    simp only [distance]
    rw [h]

theorem claim_C5_witness :
    distance 0 (exHead10 :: exRest10) (none : Option (List (SkipNode Nat)))
      = Except.ok 10 ∧
    distance 1 (exHead10 :: exRest10) (some (exRest10.drop 5)) = Except.ok 6 := by
  have h := claim_C5 exHead10 exRest10 0 (by decide) (by decide)
  have h2 := claim_C5 exHead10 exRest10 1 (by decide) (by decide)
  refine ⟨h.2, ?_⟩
  have h3 := h2.1 (exRest10.drop 5)
  rw [if_pos (by decide)] at h3
  exact h3
